import Mathlib

/-!
Verification of the `mod_rewrite` rule-rewriting engine
(`src/includes/rust_rewrite`): a shallow embedding of the tokenizer,
condition matcher, rule compiler, expression parser and the
`ExprGroup` rewrite state machine, together with theorems settling the
frozen claims about it.

Modelling conventions:
* Rust `String`/`&str` values are embedded as `List Char` (named `Str`).
  All inputs considered are ASCII, so Rust byte indices coincide with
  character indices.
* Rust `usize`/`u16` arithmetic is far below overflow in every function
  modelled, so `Nat` is used directly.
* Scanning loops whose cursor can jump forward by more than one
  character are defined structurally over an explicit fuel argument
  (initialised to the scanned list's length by a wrapper); this is pure
  bookkeeping and each such function is independent of the fuel as soon
  as the fuel dominates the list length.
* Filesystem probes (`FileTest::matches`) perform I/O; their outcome is
  supplied by an explicit oracle field in the `EngineCtx` model.
* The regular expressions compiled by `Rule::from_str` are modelled for
  the pattern fragment `[^] literal [(.*)] [$]` (an optional start
  anchor, a literal, an optional trailing capture-all group, an optional
  end anchor), which covers every pattern exercised here; patterns
  outside this fragment are rejected by the model's `compilePattern`.
  Matching follows the leftmost-first search of `regex_automata`.
-/

/-- Rust strings are embedded as lists of characters. -/
abbrev Str := List Char

/-- Shorthand for embedding a Lean string literal. -/
def str (s : String) : Str := s.toList

/-- Character constants written via code points. -/
def quoteS : Char := Char.ofNat 39

/-- Double-quote character. -/
def quoteD : Char := Char.ofNat 34

/-- Backslash character. -/
def bsC : Char := Char.ofNat 92

/-- Backtick character. -/
def btC : Char := Char.ofNat 96

/-- Left curly brace. -/
def lbr : Char := Char.ofNat 123

/-- Right curly brace. -/
def rbr : Char := Char.ofNat 125

/-- Left square bracket. -/
def lsq : Char := Char.ofNat 91

/-- Right square bracket. -/
def rsq : Char := Char.ofNat 93

/-- ASCII restriction of Rust's `char::is_whitespace` (the inputs
considered contain no non-ASCII whitespace). -/
def wsChar (c : Char) : Bool :=
  c = ' ' || c = Char.ofNat 9 || c = Char.ofNat 10 || c = Char.ofNat 13 || c = Char.ofNat 11 || c = Char.ofNat 12

/-- ASCII lowercasing, modelling `str::to_lowercase` on the ASCII inputs
considered. -/
def toLowerStr (s : Str) : Str := s.map Char.toLower

/-- Model of Rust's `str::trim`. -/
def trimWs (s : Str) : Str := ((s.dropWhile wsChar).reverse.dropWhile wsChar).reverse

/-- Model of Rust's `str::split_whitespace`: split on whitespace runs,
producing no empty tokens. -/
def wsSplitAux : Str → Str → List Str
  | cur, [] => if cur = [] then [] else [cur]
  | cur, c :: rest =>
    if wsChar c then
      (if cur = [] then wsSplitAux [] rest else cur :: wsSplitAux [] rest)
    else wsSplitAux (cur ++ [c]) rest

/-- Splitting a string at whitespace, dropping empty tokens.  This is both
the model of Rust's `str::split_whitespace` and the reading of the
specification sentence "splits on whitespace outside quotes" for
quote-free input. -/
def wsSplit (s : Str) : List Str := wsSplitAux [] s

/-- Model of Rust's `str::split(c)` (keeps empty segments). -/
def splitOnChar (c : Char) : Str → List Str
  | [] => [[]]
  | a :: rest =>
    if a = c then [] :: splitOnChar c rest
    else match splitOnChar c rest with
      | [] => [[a]]
      | seg :: segs => (a :: seg) :: segs

/-- Model of Rust's `str::split_once(c)`: split at the first occurrence
of `c`, returning the parts before and after it. -/
def splitOnceChar : Str → Char → Option (Str × Str)
  | [], _ => none
  | a :: rest, c =>
    if a = c then some ([], rest)
    else (splitOnceChar rest c).map (fun p => (a :: p.1, p.2))

/-- Model of Rust's `str::split_once(char::is_whitespace)`. -/
def splitOnceWs : Str → Option (Str × Str)
  | [] => none
  | a :: rest =>
    if wsChar a then some ([], rest)
    else (splitOnceWs rest).map (fun p => (a :: p.1, p.2))

/-- Model of `str::trim_matches` with a character-set predicate. -/
def trimMatches (p : Char → Bool) (s : Str) : Str :=
  ((s.dropWhile p).reverse.dropWhile p).reverse

/-- Numeric value of a digit string (callers check `Char.isDigit`). -/
def natOfDigits (s : Str) : Nat := s.foldl (fun a c => a * 10 + (c.toNat - 48)) 0

/-- Model of Rust's `u16::from_str`: optional leading `+`, one or more
ASCII digits, value below `2^16`. -/
def parseU16 (s : Str) : Option Nat :=
  let digits := match s with | '+' :: t => t | _ => s
  if digits ≠ [] ∧ digits.all Char.isDigit then
    let n := natOfDigits digits
    if n < 65536 then some n else none
  else none

/-- Model of Rust's `i32::from_str`: optional sign, one or more ASCII
digits, value within the 32-bit signed range. -/
def parseI32 (s : Str) : Option Int :=
  let (sign, digits) : Int × Str := match s with
    | '-' :: t => (-1, t)
    | '+' :: t => (1, t)
    | t => (1, t)
  if digits ≠ [] ∧ digits.all Char.isDigit then
    let v : Int := sign * (natOfDigits digits : Int)
    if -2147483648 ≤ v ∧ v ≤ 2147483647 then some v else none
  else none

/-!  Model of `src/conditions/error.rs` (`CondError`). -/

/-- Errors raised while parsing a rule condition expression
(`conditions/error.rs`). -/
inductive CondError where
  | InvalidPattern (s : Str)
  | InvalidComparison (s : Str)
  | InvalidFileTest (s : Str)
  | UnclosedQuotation (s : Str)
  | EmptyExpression
  | MissingComparison
  | InvalidSuffix (s : Str)
  | MissingSuffix
  | FlagsMissingBrackets (s : Str)
  | FlagsEmpty
  | InvalidFlag (s : Str)
deriving DecidableEq

/-!  Model of `src/conditions/parse.rs`: `end_quote` and `tokenize`. -/

/-- Loop body of `end_quote` (`conditions/parse.rs` lines 3-16),
scanning the characters after the opening quote. `b` is the running
count of the backslash run immediately before the current character;
the result is the offset of the first closing quote preceded by an even
backslash run. -/
def endQuoteFind (q : Char) : Str → Nat → Option Nat
  | [], _ => none
  | c :: rest, b =>
    if c = q ∧ b % 2 = 0 then some 0
    else if c = bsC then (endQuoteFind q rest (b + 1)).map (· + 1)
    else (endQuoteFind q rest 0).map (· + 1)

/-- Model of `end_quote(s, index, quote)`: scans `s.chars().skip(index)`
with the backslash counter starting at zero and returns the absolute
index of the first unescaped `quote`, or `UnclosedQuotation` carrying
`s[index - 1..]`. -/
def end_quote (s : Str) (index : Nat) (q : Char) : Except CondError Nat :=
  match endQuoteFind q (s.drop index) 0 with
  | some k => .ok (index + k)
  | none => .error (.UnclosedQuotation (s.drop (index - 1)))

/-- Loop of `tokenize` (`conditions/parse.rs` lines 18-46).  `len` is the
total input length, `rem` the characters from absolute position `i`
onward, `cur` the partially accumulated unquoted token (`expression` in
the source) and `acc` the emitted tokens (`expressions`).  The quote
branch mirrors the source exactly: the quoted content is emitted
immediately, the cursor jumps past the closing quote, and scanning only
resumes while the Rust condition `index < s.len() - 1` holds.  The fuel
argument dominates `rem.length` at every call. -/
def tokenizeGo (len : Nat) : Nat → Str → Nat → Str → List Str → Except CondError (List Str)
  | _, [], _, cur, acc => .ok (acc ++ if cur = [] then [] else [cur])
  | 0, _ :: _, _, cur, acc => .ok (acc ++ if cur = [] then [] else [cur])
  | fuel + 1, c :: rest, i, cur, acc =>
    if wsChar c then
      if cur = [] then tokenizeGo len fuel rest (i + 1) [] acc
      else tokenizeGo len fuel rest (i + 1) [] (acc ++ [cur])
    else if c = quoteS ∨ c = quoteD then
      match endQuoteFind c rest 0 with
      | none => .error (.UnclosedQuotation (c :: rest))
      | some k =>
        let acc := acc ++ [rest.take k]
        if i + k + 2 < len - 1 then
          tokenizeGo len fuel (rest.drop (k + 1)) (i + k + 2) cur acc
        else .ok (acc ++ if cur = [] then [] else [cur])
    else tokenizeGo len fuel rest (i + 1) (cur ++ [c]) acc

/-- Model of `tokenize` (`conditions/parse.rs`): the scan loop is only
entered while `index < s.len() - 1` holds, so inputs of length below two
yield no tokens at all.  (On the empty string the Rust code does not
terminate; the model returns the empty token list there.) -/
def tokenize (s : Str) : Except CondError (List Str) :=
  if 0 < s.length - 1 then tokenizeGo s.length s.length s 0 [] []
  else .ok []

/-- Model of `matches_start` (`conditions/parse.rs` lines 49-51). -/
def matches_start (s : Str) (cs : List Char) : Option Char :=
  cs.find? (fun c => s.head? = some c)

/-!  Model of `src/conditions/matcher.rs`. -/

/-- `CondPattern` string-relational operators (`matcher.rs`). -/
inductive Pattern where
  | Preceeds
  | Follows
  | Equals
  | PreceedsOrEquals
  | FollowsOrEquals
deriving DecidableEq

/-- Model of `Pattern::from_str`. -/
def Pattern.from_str (s : Str) : Except CondError Pattern :=
  if s = str "<" then .ok .Preceeds
  else if s = str ">" then .ok .Follows
  else if s = str "=" then .ok .Equals
  else if s = str "<=" then .ok .PreceedsOrEquals
  else if s = str ">=" then .ok .FollowsOrEquals
  else .error (.InvalidPattern s)

/-- Integer comparison operators (`matcher.rs`). -/
inductive Compare where
  | Equal
  | GreaterThan
  | GreaterOrEqual
  | LesserThan
  | LesserOrEqual
  | NotEqual
deriving DecidableEq

/-- Model of `Compare::from_str`. -/
def Compare.from_str (s : Str) : Except CondError Compare :=
  if s = str "-eq" then .ok .Equal
  else if s = str "-gt" then .ok .GreaterThan
  else if s = str "-ge" then .ok .GreaterOrEqual
  else if s = str "-lt" then .ok .LesserThan
  else if s = str "-le" then .ok .LesserOrEqual
  else if s = str "-ne" then .ok .NotEqual
  else .error (.InvalidComparison s)

/-- File attribute tests (`matcher.rs`). -/
inductive FileTest where
  | Dir
  | File
  | Symbolic
  | SizedFile
  | Executable
deriving DecidableEq

/-- Model of `FileTest::from_str`. -/
def FileTest.from_str (s : Str) : Except CondError FileTest :=
  if s = str "-d" then .ok .Dir
  else if s = str "-f" then .ok .File
  else if s = str "-h" ∨ s = str "-l" then .ok .Symbolic
  else if s = str "-s" then .ok .SizedFile
  else if s = str "-x" then .ok .Executable
  else .error (.InvalidFileTest s)

/-- Compiled condition expression (`Match` in `matcher.rs`). -/
inductive Match where
  | Pattern (v1 : Str) (pt : Pattern) (v2 : Str)
  | NotPattern (v1 : Str) (pt : Pattern) (v2 : Str)
  | Compare (v1 : Str) (cp : Compare) (v2 : Str)
  | FileTest (v1 : Str) (ft : FileTest)
  | NotFileTest (v1 : Str) (ft : FileTest)
deriving DecidableEq

/-- Model of `Match::parse` over the token stream: returns the parsed
matcher together with the tokens left unconsumed (the peekable
iterator's remainder). -/
def Match.parse (tokens : List Str) : Except CondError (Match × List Str) :=
  match tokens with
  | [] => .error .EmptyExpression
  | first :: rest =>
    match rest with
    | [] => .error .MissingComparison
    | expr0 :: rest2 =>
      let isNot := expr0.head? = some '!'
      let expr := expr0.dropWhile (· = '!')
      match matches_start expr ['<', '>', '='] with
      | some c =>
        match splitOnceChar expr c with
        | none => .error (.InvalidPattern expr)
        | some (_, second) =>
          match Pattern.from_str (expr.take (expr.length - second.length)) with
          | .error e => .error e
          | .ok pattern =>
            if isNot then .ok (.NotPattern first pattern second, rest2)
            else .ok (.Pattern first pattern second, rest2)
      | none =>
        match rest2.head? with
        | some second =>
          if ¬ (second.head? = some lsq) then
            if isNot then .error (.InvalidComparison expr)
            else match Compare.from_str expr with
              | .error e => .error e
              | .ok cmp => .ok (.Compare first cmp second, rest2.tail)
          else match FileTest.from_str expr with
            | .error e => .error e
            | .ok ftest =>
              if isNot then .ok (.NotFileTest first ftest, rest2)
              else .ok (.FileTest first ftest, rest2)
        | none =>
          match FileTest.from_str expr with
          | .error e => .error e
          | .ok ftest =>
            if isNot then .ok (.NotFileTest first ftest, rest2)
            else .ok (.FileTest first ftest, rest2)

/-!  Model of `src/conditions/context.rs`: variable expansion.  The
`MATCHER` regex is the fixed pattern matching one `%` followed by `{`,
one or more word characters and `}`. -/

/-- ASCII word characters, the relevant case of the regex class in
the variable-reference pattern. -/
def isWordChar (c : Char) : Bool := c.isAlphanum || c = '_'

/-- Attempt to match the variable-reference regex at the start of `s`,
returning the matched text and the remainder. -/
def matchVarAt (s : Str) : Option (Str × Str) :=
  match s with
  | c0 :: c1 :: t =>
    if c0 = '%' ∧ c1 = lbr then
      let w := t.takeWhile isWordChar
      if w = [] then none
      else match t.drop w.length with
        | c2 :: t2 => if c2 = rbr then some (c0 :: c1 :: (w ++ [c2]), t2) else none
        | [] => none
    else none
  | _ => none

/-- Fueled scan underlying `Regex::find_iter` for the variable-reference
pattern: leftmost non-overlapping matches, in order. -/
def findMatchesF : Nat → Str → List Str
  | 0, _ => []
  | _, [] => []
  | fuel + 1, c :: rest =>
    match matchVarAt (c :: rest) with
    | some p => p.1 :: findMatchesF fuel p.2
    | none => findMatchesF fuel rest

/-- All matches of the variable-reference regex in `s` (the `find_iter`
collection in `EngineCtx::replace_all`). -/
def findMatches (s : Str) : List Str := findMatchesF s.length s

/-- Fueled model of Rust's `str::replace`: replace every non-overlapping
occurrence of `pat` in `s` by `rep`, scanning left to right.  (`replace`
with an empty pattern never occurs in the code modelled; the model
leaves `s` unchanged in that case.) -/
def replaceSubF (pat rep : Str) : Nat → Str → Str
  | 0, s => s
  | _, [] => []
  | fuel + 1, c :: s =>
    if pat ≠ [] ∧ pat.isPrefixOf (c :: s) then
      rep ++ replaceSubF pat rep fuel ((c :: s).drop pat.length)
    else c :: replaceSubF pat rep fuel s

/-- Model of Rust's `str::replace`. -/
def replaceSub (s pat rep : Str) : Str := replaceSubF pat rep s.length s

/-- Model of `EngineCtx`, the prioritized chain of variable providers.
Providers are embedded as pure lookup functions (the internal caching of
`EnvCtx` is observationally transparent), and the filesystem probes of
`FileTest::matches` — which perform I/O — are supplied by the `probe`
oracle. -/
structure EngineCtx where
  providers : List (Str → Option Str)
  probe : FileTest → Str → Bool

/-- Model of `EngineCtx::fill`: first provider hit, or the empty
string. -/
def EngineCtx.fill (ctx : EngineCtx) (expr : Str) : Str :=
  (ctx.providers.findSome? (fun p => p expr)).getD []

/-- Trimming of `%`, `{`, `}` from both ends of a matched reference
(`key.trim_matches` in `EngineCtx::replace_all`). -/
def pctTrim (key : Str) : Str :=
  trimMatches (fun c => c = '%' || c = lbr || c = rbr) key

/-- Model of `EngineCtx::replace_all`: collect every match of the
variable-reference regex in `expr`, then fold over them, replacing every
occurrence of each matched text in the accumulated string by the filled
value. -/
def EngineCtx.replace_all (ctx : EngineCtx) (expr : Str) : Str :=
  (findMatches expr).foldl (fun acc key => replaceSub acc key (ctx.fill (pctTrim key))) expr

/-- Value wrapper toggling case sensitivity (`Value` in `matcher.rs`). -/
inductive Value where
  | NoCase (s : Str)
  | Case (s : Str)
deriving DecidableEq

/-- Model of `Value::new`: replace variables via the context, then wrap
according to the case setting. -/
def Value.new (s : Str) (nocase : Bool) (ctx : EngineCtx) : Value :=
  let value := ctx.replace_all s
  if nocase then .NoCase value else .Case value

/-- Underlying string of a `Value` (the `Deref` impl). -/
def Value.deref : Value → Str
  | .NoCase s => s
  | .Case s => s

/-- Model of `Value::starts_with`.  In both arms the call resolves
through `Deref` to `String::starts_with`, so the test is case-sensitive
even for the `NoCase` variant (a quirk of the source preserved here). -/
def Value.starts_with (self s : Value) : Bool :=
  match self with
  | .Case c => s.deref.isPrefixOf c
  | .NoCase c => s.deref.isPrefixOf c

/-- Model of `Value::ends_with` (same `Deref` resolution as
`starts_with`). -/
def Value.ends_with (self s : Value) : Bool :=
  match self with
  | .Case c => s.deref.isSuffixOf c
  | .NoCase c => s.deref.isSuffixOf c

/-- Model of the derived `PartialEq` on `Value`: `NoCase` values compare
case-insensitively (`UniCase` equality, ASCII case folding here), `Case`
values literally, mixed variants are never equal. -/
def Value.eq (a b : Value) : Bool :=
  match a, b with
  | .NoCase x, .NoCase y => toLowerStr x = toLowerStr y
  | .Case x, .Case y => x = y
  | _, _ => false

/-- Model of `Pattern::matches` (`matcher.rs` lines 130-139). -/
def Pattern.matches (p : Pattern) (first second : Value) : Bool :=
  match p with
  | .Preceeds | .PreceedsOrEquals => first.starts_with second
  | .Follows | .FollowsOrEquals => first.ends_with second
  | .Equals => first.eq second

/-- Model of `Compare::compare` (`matcher.rs` lines 167-185): both sides
are parsed as 32-bit signed integers, non-numeric operands make the
comparison false. -/
def Compare.compare (cp : Compare) (first second : Value) : Bool :=
  match parseI32 first.deref with
  | none => false
  | some a =>
    match parseI32 second.deref with
    | none => false
    | some b =>
      match cp with
      | .Equal => a = b
      | .GreaterThan => a > b
      | .GreaterOrEqual => a ≥ b
      | .LesserThan => a < b
      | .LesserOrEqual => a ≤ b
      | .NotEqual => a ≠ b

/-!  Model of `src/conditions/mod.rs`: `Condition`. -/

/-- Condition flags (`CondFlag` in `conditions/mod.rs`). -/
inductive CondFlag where
  | NoCase
  | Or
deriving DecidableEq

/-- Model of `CondFlag::from_str`. -/
def CondFlag.from_str (s : Str) : Except CondError CondFlag :=
  let l := toLowerStr s
  if l = str "i" ∨ l = str "insensitive" ∨ l = str "nc" ∨ l = str "nocase" then .ok .NoCase
  else if l = str "or" ∨ l = str "ornext" then .ok .Or
  else .error (.InvalidFlag s)

/-- Model of `.collect::<Result<Vec<_>, _>>()`: apply `f` to each
element, stopping at the first error. -/
def collectExcept {e a b : Type} (f : a → Except e b) : List a → Except e (List b)
  | [] => .ok []
  | x :: rest =>
    match f x with
    | .error err => .error err
    | .ok v =>
      match collectExcept f rest with
      | .error err => .error err
      | .ok vs => .ok (v :: vs)

/-- Model of `CondFlagList::from_str`. -/
def CondFlagList.from_str (s : Str) : Except CondError (List CondFlag) :=
  if ¬ (s.head? = some lsq ∧ s.getLast? = some rsq) then .error (.FlagsMissingBrackets s)
  else
    match collectExcept CondFlag.from_str
        (((splitOnChar ',' ((s.drop 1).dropLast)).map trimWs).filter (· ≠ [])) with
    | .error e => .error e
    | .ok flags => if flags = [] then .error .FlagsEmpty else .ok flags

/-- Compiled `RewriteCond` expression (`Condition` in
`conditions/mod.rs`). -/
structure Condition where
  matcher : Match
  flags : List CondFlag
deriving DecidableEq

/-- Model of `Condition::is_met`. -/
def Condition.is_met (cond : Condition) (ctx : EngineCtx) : Bool :=
  let nocase := cond.flags.any (· = CondFlag.NoCase)
  match cond.matcher with
  | .Pattern v1 pt v2 => pt.matches (Value.new v1 nocase ctx) (Value.new v2 nocase ctx)
  | .NotPattern v1 pt v2 => ! pt.matches (Value.new v1 nocase ctx) (Value.new v2 nocase ctx)
  | .Compare v1 cp v2 => cp.compare (Value.new v1 nocase ctx) (Value.new v2 nocase ctx)
  | .FileTest v1 ft => ctx.probe ft (Value.new v1 nocase ctx).deref
  | .NotFileTest v1 ft => ! ctx.probe ft (Value.new v1 nocase ctx).deref

/-- Model of `Condition::is_or`. -/
def Condition.is_or (cond : Condition) : Bool :=
  cond.flags.any (· = CondFlag.Or)

/-- Model of `Condition::from_str`: tokenize, parse the matcher, then
parse the next token (if any) as the flag list; further tokens are
ignored by the source. -/
def Condition.from_str (s : Str) : Except CondError Condition :=
  match tokenize s with
  | .error e => .error e
  | .ok tokens =>
    match Match.parse tokens with
    | .error e => .error e
    | .ok (matcher, rest) =>
      match rest.head? with
      | some f =>
        match CondFlagList.from_str f with
        | .error e => .error e
        | .ok flags => .ok ⟨matcher, flags⟩
      | none => .ok ⟨matcher, []⟩

/-!  Model of `src/rule.rs`: the `ESCAPE` set, percent encoding, rule
flags, the pattern fragment and `Rule`. -/

/-- The `ESCAPE` `AsciiSet` of `rule.rs` lines 13-36: the control
characters together with the listed URL-structural characters. -/
def inEscapeSet (c : Char) : Bool :=
  c.toNat < 32 || c.toNat = 127 ||
  c = '~' || c = ' ' || c = quoteS || c = quoteD || c = btC ||
  c = '#' || c = '<' || c = '>' || c = '?' ||
  c = '^' || c = lbr || c = rbr ||
  c = '/' || c = ':' || c = ';' || c = '=' || c = '@' || c = lsq || c = rsq ||
  c = '$' || c = '&' || c = '+' || c = ','

/-- Uppercase hexadecimal digit. -/
def hexDigit (n : Nat) : Char :=
  if n < 10 then Char.ofNat (48 + n) else Char.ofNat (55 + n)

/-- Percent-encoding of one byte, uppercase hex as produced by the
`percent_encoding` crate. -/
def pctByte (b : Nat) : Str := ['%', hexDigit (b / 16), hexDigit (b % 16)]

/-- UTF-8 bytes of a code point. -/
def utf8Bytes (n : Nat) : List Nat :=
  if n < 128 then [n]
  else if n < 2048 then [192 + n / 64, 128 + n % 64]
  else if n < 65536 then [224 + n / 4096, 128 + (n / 64) % 64, 128 + n % 64]
  else [240 + n / 262144, 128 + (n / 4096) % 64, 128 + (n / 64) % 64, 128 + n % 64]

/-- Model of `utf8_percent_encode(_, ESCAPE)` on one character: ASCII
characters are encoded exactly when they are in the set, non-ASCII
characters always have every UTF-8 byte encoded. -/
def pctEncodeChar (c : Char) : Str :=
  if c.toNat < 128 then (if inEscapeSet c then pctByte c.toNat else [c])
  else (utf8Bytes c.toNat).foldr (fun b acc => pctByte b ++ acc) []

/-- Model of `utf8_percent_encode(string, ESCAPE).to_string()`. -/
def pctEncode (s : Str) : Str := s.foldr (fun c acc => pctEncodeChar c ++ acc) []

/-- Shift flags (`RuleShift` in `rule.rs`). -/
inductive RuleShift where
  | End
  | Last
  | Next
  | Skip (n : Nat)
deriving DecidableEq

/-- Modifier flags (`RuleMod` in `rule.rs`). -/
inductive RuleMod where
  | NoCase
  | NoEscape
deriving DecidableEq

/-- Resolve flags (`RuleResolve` in `rule.rs`). -/
inductive RuleResolve where
  | Redirect (status : Nat)
  | Status (status : Nat)
deriving DecidableEq

/-- Rule flags (`RuleFlag` in `rule.rs`). -/
inductive RuleFlag where
  | Shift (s : RuleShift)
  | Mod (m : RuleMod)
  | Resolve (r : RuleResolve)
deriving DecidableEq

/-- Errors raised when parsing rewrite rules (`error.rs`). -/
inductive RuleError where
  | MissingPattern
  | InvalidRegex (s : Str)
  | MissingRewrite
  | InvalidSuffix (s : Str)
  | FlagsMissingBrackets (s : Str)
  | FlagsEmpty
  | FlagsMutuallyExclusive
  | InvalidFlag (s : Str)
  | InvalidFlagNumber
  | InvalidFlagStatus (s : Str)
deriving DecidableEq

/-- Model of `parse_int` (`rule.rs` lines 182-188). -/
def parse_int (s : Str) (default : Nat) : Except RuleError Nat :=
  if s = [] then .ok default
  else match parseU16 s with
    | some n => .ok n
    | none => .error .InvalidFlagNumber

/-- Model of `parse_status` (`rule.rs` lines 190-197). -/
def parse_status (s : Str) (default : Nat) : Except RuleError Nat :=
  match parse_int s default with
  | .error e => .error e
  | .ok status =>
    if ¬ (100 ≤ status ∧ status < 600) then .error (.InvalidFlagStatus s)
    else .ok status

/-- Model of `RuleFlag::from_str` (`rule.rs` lines 233-255). -/
def RuleFlag.from_str (s0 : Str) : Except RuleError RuleFlag :=
  let ps : Str × Str := match splitOnceChar s0 '=' with
    | some (pre, suf) => (pre, suf)
    | none => (s0, [])
  let p := toLowerStr ps.1
  let s := ps.2
  if p = str "e" ∨ p = str "end" then .ok (.Shift .End)
  else if p = str "l" ∨ p = str "last" then .ok (.Shift .Last)
  else if p = str "n" ∨ p = str "next" then .ok (.Shift .Next)
  else if p = str "s" ∨ p = str "skip" then (parse_int s 1).map (fun n => .Shift (.Skip n))
  else if p = str "i" ∨ p = str "insensitive" ∨ p = str "nc" ∨ p = str "nocase" then .ok (.Mod .NoCase)
  else if p = str "ne" ∨ p = str "noescape" then .ok (.Mod .NoEscape)
  else if p = str "r" ∨ p = str "redirect" then (parse_status s 302).map (fun n => .Resolve (.Redirect n))
  else if p = str "f" ∨ p = str "forbidden" then .ok (.Resolve (.Status 403))
  else if p = str "g" ∨ p = str "gone" then .ok (.Resolve (.Status 410))
  else if p = [] then (parse_status s 403).map (fun n => .Resolve (.Status n))
  else .error (.InvalidFlag s)

/-- Does the flag belong to the `Shift` category? -/
def RuleFlag.isShift : RuleFlag → Bool
  | .Shift _ => true
  | _ => false

/-- Does the flag belong to the `Resolve` category? -/
def RuleFlag.isResolve : RuleFlag → Bool
  | .Resolve _ => true
  | _ => false

/-- Model of `RuleFlagList::from_str` (`rule.rs` lines 151-180). -/
def RuleFlagList.from_str (s : Str) : Except RuleError (List RuleFlag) :=
  if ¬ (s.head? = some lsq ∧ s.getLast? = some rsq) then .error (.FlagsMissingBrackets s)
  else
    match collectExcept RuleFlag.from_str
        (((splitOnChar ',' ((s.drop 1).dropLast)).map trimWs).filter (· ≠ [])) with
    | .error e => .error e
    | .ok flags =>
      if flags = [] then .error .FlagsEmpty
      else if (flags.filter RuleFlag.isShift).length + (flags.filter RuleFlag.isResolve).length > 1 then
        .error .FlagsMutuallyExclusive
      else .ok flags

/-- Compiled form of the regex fragment `[^] literal [(.*)] [$]` (see
the header); the faithful stand-in for the `regex_automata::meta::Regex`
field of `Rule`. -/
structure PatternModel where
  anchoredStart : Bool
  lit : Str
  captureRest : Bool
  anchoredEnd : Bool
  nocase : Bool
deriving DecidableEq

/-- Characters with a special meaning in the regex syntax; a fragment
literal may not contain them. -/
def regexMeta : List Char := ['.', '*', '+', '?', '(', ')', lsq, rsq, lbr, rbr, '|', '^', '$', bsC]

/-- Model of the `Regex::builder().build(pattern)` call of
`Rule::from_str` for the supported fragment; patterns outside the
fragment are rejected with `InvalidRegex` (a modelling restriction, see
the header). -/
def compilePattern (pattern : Str) (insense : Bool) : Except RuleError PatternModel :=
  let p1 : Str × Bool := match pattern with
    | '^' :: t => (t, true)
    | t => (t, false)
  let p2 : Str × Bool :=
    if p1.1.getLast? = some '$' then (p1.1.dropLast, true) else (p1.1, false)
  let cap : Bool := (str "(.*)").isSuffixOf p2.1
  let lit : Str := if cap then p2.1.take (p2.1.length - 4) else p2.1
  if lit.any (· ∈ regexMeta) then .error (.InvalidRegex pattern)
  else .ok ⟨p1.2, lit, cap, p2.2, insense⟩

/-- Does the literal of the fragment match at the start of `s`? -/
def litMatchAt (nocase : Bool) (lit s : Str) : Bool :=
  if nocase then (toLowerStr lit).isPrefixOf (toLowerStr s) else lit.isPrefixOf s

/-- Leftmost offset at which the literal matches, optionally required to
end exactly at the end of the string. -/
def findLit (nocase : Bool) (lit : Str) (needEnd : Bool) : Str → Option Nat
  | [] =>
    if litMatchAt nocase lit [] ∧ (needEnd → ([] : Str).length = lit.length) then some 0 else none
  | c :: t =>
    if litMatchAt nocase lit (c :: t) ∧ (needEnd → (c :: t).length = lit.length) then some 0
    else (findLit nocase lit needEnd t).map (· + 1)

/-- Leftmost-first capture search for the fragment, modelling
`Regex::captures`: the returned list holds the text of capture group 0
(the whole match) and, when the fragment carries the trailing capture
group, group 1. -/
def pmatch (p : PatternModel) (uri : Str) : Option (List (Option Str)) :=
  let needEnd := p.anchoredEnd ∧ ¬ p.captureRest
  let found : Option Nat :=
    if p.anchoredStart then
      if litMatchAt p.nocase p.lit uri ∧ (needEnd → uri.length = p.lit.length) then some 0 else none
    else findLit p.nocase p.lit needEnd uri
  found.map (fun i =>
    if p.captureRest then [some (uri.drop i), some (uri.drop (i + p.lit.length))]
    else [some ((uri.drop i).take p.lit.length)])

/-- Valid capture-reference name characters of the interpolation syntax
(`[0-9A-Za-z_]`). -/
def isCapLetter (c : Char) : Bool := c.isAlphanum || c = '_'

/-- Parse a capture reference following a `$` in a rewrite template:
either `{name}` or a maximal run of name characters; returns the name
and the remainder. -/
def capRef (rest : Str) : Option (Str × Str) :=
  match rest with
  | [] => none
  | c :: t =>
    if c = lbr then
      let name := t.takeWhile isCapLetter
      if name = [] then none
      else match t.drop name.length with
        | c2 :: t2 => if c2 = rbr then some (name, t2) else none
        | [] => none
    else
      let name := rest.takeWhile isCapLetter
      if name = [] then none else some (name, rest.drop name.length)

/-- Fueled model of `regex_automata::util::interpolate::string`: copy
the template, expanding `$$` to `$`, `$N`/`${N}` through `appendG` and
named references through `nameIdx`; a lone `$` that begins no reference
stays literal, and an unresolved named reference expands to nothing. -/
def interpolateF (appendG : Nat → Str) (nameIdx : Str → Option Nat) : Nat → Str → Str
  | 0, s => s
  | _, [] => []
  | fuel + 1, c :: rest =>
    if c = '$' then
      match rest with
      | '$' :: rest2 => '$' :: interpolateF appendG nameIdx fuel rest2
      | _ =>
        match capRef rest with
        | none => '$' :: interpolateF appendG nameIdx fuel rest
        | some (name, after) =>
          let idx := if name ≠ [] ∧ name.all Char.isDigit then some (natOfDigits name) else nameIdx name
          (match idx with | some i => appendG i | none => []) ++ interpolateF appendG nameIdx fuel after
    else c :: interpolateF appendG nameIdx fuel rest

/-- Interpolation of a rewrite template. -/
def interpolate (appendG : Nat → Str) (nameIdx : Str → Option Nat) (s : Str) : Str :=
  interpolateF appendG nameIdx s.length s

/-- Compiled `RewriteRule` expression (`Rule` in `rule.rs`). -/
structure Rule where
  pattern : PatternModel
  rewrite : Str
  flags : List RuleFlag
deriving DecidableEq

/-- Model of `Rule::try_rewrite` (`rule.rs` lines 58-88): `None` when
the pattern does not match, otherwise the interpolated template where
each referenced capture is inserted raw under `NoEscape` and
percent-encoded over `ESCAPE` otherwise.  (The fragment has no named
groups, so the name-to-index closure resolves nothing.) -/
def Rule.try_rewrite (r : Rule) (uri : Str) : Option Str :=
  match pmatch r.pattern uri with
  | none => none
  | some caps =>
    let noescape := r.flags.any (· = RuleFlag.Mod RuleMod.NoEscape)
    some (interpolate
      (fun idx =>
        match caps.getD idx none with
        | none => []
        | some span => if noescape then span else pctEncode span)
      (fun _ => none) r.rewrite)

/-- Model of `Rule::shift`: the first `Shift` flag, if any. -/
def Rule.shift (r : Rule) : Option RuleShift :=
  r.flags.findSome? (fun f => match f with
    | .Shift s => some s
    | _ => none)

/-- Model of `Rule::resolve`: the first `Resolve` flag, if any. -/
def Rule.resolve (r : Rule) : Option RuleResolve :=
  r.flags.findSome? (fun f => match f with
    | .Resolve r => some r
    | _ => none)

/-- Model of `Rule::from_str` (`rule.rs` lines 111-147). -/
def Rule.from_str (s : Str) : Except RuleError Rule :=
  let items := (wsSplit s).filter (· ≠ [])
  match items with
  | [] => .error .MissingPattern
  | [_] => .error .MissingRewrite
  | pattern :: rewrite :: rest =>
    match (match rest.head? with
      | some f => RuleFlagList.from_str f
      | none => .ok []) with
    | .error e => .error e
    | .ok flags =>
      match rest.tail.head? with
      | some next => .error (.InvalidSuffix next)
      | none =>
        let insense := flags.any (· = RuleFlag.Mod RuleMod.NoCase)
        match compilePattern pattern insense with
        | .error e => .error e
        | .ok regex => .ok ⟨regex, rewrite, flags⟩

/-!  Model of `src/extra.rs`. -/

/-- Model of `split_query`: split the URI at the first `?`. -/
def split_query (uri : Str) : Str × Str :=
  match splitOnceChar uri '?' with
  | some (b, q) => (b, q)
  | none => (uri, [])

/-- Model of `join_query`: re-attach a query string with `?`, or with
`&` when the URI already carries one. -/
def join_query (uri query : Str) : Str :=
  if query = [] then uri
  else uri ++ (if uri.contains '?' then ['&'] else ['?']) ++ query

/-- Engine state directive (`State` in `extra.rs`). -/
inductive State where
  | On
  | Off
deriving DecidableEq

/-!  Model of `src/error.rs` (`EngineError`, `ExpressionError`). -/

/-- Runtime engine errors. -/
inductive EngineError where
  | TooManyIterations
deriving DecidableEq

/-- Errors when parsing rewrite expressions. -/
inductive ExpressionError where
  | MissingIdentifier
  | InvalidIdentifier (s : Str)
  | InvalidStateRule (s : Str)
  | ConditionError (e : CondError)
  | RuleError (e : RuleError)
deriving DecidableEq

/-- Model of `State::from_str`. -/
def State.from_str (s : Str) : Except ExpressionError State :=
  let l := toLowerStr s
  if l = str "on" then .ok .On
  else if l = str "off" then .ok .Off
  else .error (.InvalidStateRule s)

/-!  Model of `src/expr.rs`. -/

/-- Rewrite result (`Rewrite` in `expr.rs`). -/
inductive Rewrite where
  | Uri (uri : Str)
  | EndUri (uri : Str)
  | Redirect (uri : Str) (sc : Nat)
  | StatusCode (sc : Nat)
deriving DecidableEq

/-- Model of `Rewrite::with_query`. -/
def Rewrite.with_query (r : Rewrite) (query : Str) : Rewrite :=
  match r with
  | .Uri uri => .Uri (join_query uri query)
  | .EndUri uri => .EndUri (join_query uri query)
  | .Redirect uri sc => .Redirect (join_query uri query) sc
  | .StatusCode sc => .StatusCode sc

/-- Expression alternatives (`Expression` in `expr.rs`). -/
inductive Expression where
  | Condition (c : Condition)
  | Rule (r : Rule)
  | State (s : State)
deriving DecidableEq

/-- Is the expression a `State`? -/
def Expression.isState : Expression → Bool
  | .State _ => true
  | _ => false

/-- Is the expression a `Condition`? -/
def Expression.isCondition : Expression → Bool
  | .Condition _ => true
  | _ => false

/-- Is the expression a `Rule`? -/
def Expression.isRule : Expression → Bool
  | .Rule _ => true
  | _ => false

/-- Logical grouping of expressions (`ExprGroup` in `expr.rs`). -/
structure ExprGroup where
  conditions : List Condition
  rules : List Rule
  enabled : Bool
  max_iterations : Nat
deriving DecidableEq

/-- Model of `ExprGroup::new`: partition the expressions, the last
`State` expression deciding `enabled`, with `max_iterations`
defaulting to `10`. -/
def ExprGroup.new (expressions : List Expression) : ExprGroup :=
  let init : List Condition × List Rule × Bool := ([], [], true)
  let fold := expressions.foldl (fun acc expr =>
    match expr with
    | .Condition cond => (acc.1 ++ [cond], acc.2.1, acc.2.2)
    | .Rule rule => (acc.1, acc.2.1 ++ [rule], acc.2.2)
    | .State state => (acc.1, acc.2.1, state = State.On)) init
  ⟨fold.1, fold.2.1, fold.2.2, 10⟩

/-- Model of the `ExprGroup::max_iterations` builder. -/
def ExprGroup.with_max_iterations (g : ExprGroup) (iterations : Nat) : ExprGroup :=
  { g with max_iterations := iterations }

/-- Model of `ExprGroup::match_conditions` (`expr.rs` lines 82-88). -/
def ExprGroup.match_conditions (g : ExprGroup) (ctx : EngineCtx) : Bool :=
  if ¬ g.enabled then false
  else
    let part := g.conditions.partition Condition.is_or
    part.1.any (fun c => c.is_met ctx) || part.2.all (fun c => c.is_met ctx)

/-- Model of the rule scan
`rules.iter().enumerate().skip(next_index).find_map(..try_rewrite..)`:
the first rule at index at least `start` whose `try_rewrite` succeeds,
with its index and the rewritten string. -/
def findRuleAux (uri : Str) : List Rule → Nat → Option (Nat × Rule × Str)
  | [], _ => none
  | r :: rest, i =>
    match r.try_rewrite uri with
    | some s => some (i, r, s)
    | none => findRuleAux uri rest (i + 1)

/-- Scan of the rule list from `start`. -/
def findRule (rules : List Rule) (start : Nat) (uri : Str) : Option (Nat × Rule × Str) :=
  findRuleAux uri (rules.drop start) start

/-- Result assembly after the scan loop of `ExprGroup::rewrite`
(`expr.rs` lines 130-133): `TooManyIterations` whenever the iteration
counter reached the configured bound, `Uri` with the query re-attached
otherwise. -/
def loopResult (g : ExprGroup) (iterations : Nat) (path query : Str) : Except EngineError Rewrite :=
  if g.max_iterations ≤ iterations then .error .TooManyIterations
  else .ok ((Rewrite.Uri path).with_query query)

/-- The `while iterations < max_iterations` loop of `ExprGroup::rewrite`
(`expr.rs` lines 97-128).  The `fuel` argument equals
`g.max_iterations - iterations` at every call, so `fuel = 0` is exactly
the failure of the loop condition; `iterations` is carried unchanged
from the source. -/
def rewriteAux (g : ExprGroup) (query : Str) : Nat → Nat → Nat → Str → Except EngineError Rewrite
  | 0, iterations, _, path => loopResult g iterations path query
  | fuel + 1, iterations, next_index, path =>
    match findRule g.rules next_index path with
    | none => loopResult g (iterations + 1) path query
    | some (index, rule, newPath) =>
      match rule.shift with
      | some .Next => rewriteAux g query fuel (iterations + 1) 0 newPath
      | some .Last => loopResult g (iterations + 1) newPath query
      | some .End => .ok ((Rewrite.EndUri newPath).with_query query)
      | some (.Skip n) => rewriteAux g query fuel (iterations + 1) (index + 1 + n) newPath
      | none =>
        match rule.resolve with
        | some (.Status sc) => .ok (Rewrite.StatusCode sc)
        | some (.Redirect sc) => .ok ((Rewrite.Redirect newPath sc).with_query query)
        | none => rewriteAux g query fuel (iterations + 1) (index + 1) newPath

/-- Model of `ExprGroup::rewrite` (`expr.rs` lines 92-134). -/
def ExprGroup.rewrite (g : ExprGroup) (uri : Str) : Except EngineError Rewrite :=
  let pq := split_query uri
  rewriteAux g pq.2 g.max_iterations 0 0 pq.1

/-- Model of `Expression::from_str` (`expr.rs` lines 198-212). -/
def Expression.from_str (s : Str) : Except ExpressionError Expression :=
  match splitOnceWs s with
  | none => .error .MissingIdentifier
  | some (ident, expr) =>
    let id := toLowerStr ident
    if id = str "rule" ∨ id = str "rewrite" ∨ id = str "rewriterule" then
      match Rule.from_str expr with
      | .error e => .error (.RuleError e)
      | .ok r => .ok (.Rule r)
    else if id = str "cond" ∨ id = str "condition" ∨ id = str "rewritecond" then
      match Condition.from_str expr with
      | .error e => .error (.ConditionError e)
      | .ok c => .ok (.Condition c)
    else if id = str "state" ∨ id = str "engine" ∨ id = str "rewriteengine" then
      match State.from_str expr with
      | .error e => .error e
      | .ok st => .ok (.State st)
    else .error (.InvalidIdentifier s)

/-- The trimmed, comment-filtered lines considered by
`ExpressionList::from_str`. -/
def linesOf (s : Str) : List Str :=
  ((splitOnChar (Char.ofNat 10) s).map trimWs).filter (fun l => ¬ (str "//").isPrefixOf l)

/-- Loop of `ExpressionList::from_str` (`expr.rs` lines 156-183): `list`
is the pushed groups, `group` the accumulating one; a blank line pushes
the group (possibly empty), a `State` expression — or a `Condition`
directly after a `Rule` — pushes the group before being appended, any
other expression appends; the pending group is flushed at the end. -/
def groupFold : List Str → List (List Expression) → List Expression →
    Except ExpressionError (List (List Expression))
  | [], list, group => .ok (if group = [] then list else list ++ [group])
  | line :: rest, list, group =>
    if line = [] then groupFold rest (list ++ [group]) []
    else
      match Expression.from_str line with
      | .error e => .error e
      | .ok expr =>
        if expr.isState ∨ (expr.isCondition ∧ (group.getLast?.map Expression.isRule).getD false) then
          groupFold rest (list ++ [group]) [expr]
        else groupFold rest list (group ++ [expr])

/-- Model of `ExpressionList::from_str` (`expr.rs` lines 153-186):
grouping loop followed by the filtering of empty groups. -/
def ExpressionList.from_str (s : Str) : Except ExpressionError (List (List Expression)) :=
  match groupFold (linesOf s) [] [] with
  | .error e => .error e
  | .ok list => .ok (list.filter (· ≠ []))

/-!  Instrumentation of the `ExprGroup::rewrite` loop, recording how the
scan ends (used to state claim C1 precisely). -/

/-- How the scan loop of `ExprGroup::rewrite` ends: no rule in the
remaining range matched, a matched rule carried `Last`, the loop
returned early (`End`, `Status` or `Redirect`), or the `while` condition
itself failed. -/
inductive ExitCause where
  | noMatch
  | lastRule
  | early
  | cap
deriving DecidableEq

/-- Instrumented run of the `ExprGroup::rewrite` loop: the iteration
counter at exit together with the exit cause.  Mirrors `rewriteAux`
step for step. -/
def rewriteTraceAux (g : ExprGroup) : Nat → Nat → Nat → Str → Nat × ExitCause
  | 0, iterations, _, _ => (iterations, .cap)
  | fuel + 1, iterations, next_index, path =>
    match findRule g.rules next_index path with
    | none => (iterations + 1, .noMatch)
    | some (index, rule, newPath) =>
      match rule.shift with
      | some .Next => rewriteTraceAux g fuel (iterations + 1) 0 newPath
      | some .Last => (iterations + 1, .lastRule)
      | some .End => (iterations + 1, .early)
      | some (.Skip n) => rewriteTraceAux g fuel (iterations + 1) (index + 1 + n) newPath
      | none =>
        match rule.resolve with
        | some _ => (iterations + 1, .early)
        | none => rewriteTraceAux g fuel (iterations + 1) (index + 1) newPath

/-- Iteration count and exit cause of the scan loop on a URI. -/
def rewriteTrace (g : ExprGroup) (uri : Str) : Nat × ExitCause :=
  rewriteTraceAux g g.max_iterations 0 0 (split_query uri).1

/-!  Specification-side reading of the grouping algorithm (claim C5):
identical classification, but a closed group is emitted only when it is
non-empty, instead of pushing empty groups and filtering afterwards. -/

/-- Append a group to the emitted list, dropping it when empty. -/
def pushGroup (list : List (List Expression)) (group : List Expression) : List (List Expression) :=
  list ++ if group = [] then [] else [group]

/-- Grouping loop as worded by the specification: a blank line closes
the accumulating group (empty groups never reaching the result), a
`State` expression and a `Condition` directly following a `Rule` close
the group and start a new one before being appended, all other
expressions append, and a non-empty pending group is flushed at the
end. -/
def specGroupFold : List Str → List (List Expression) → List Expression →
    Except ExpressionError (List (List Expression))
  | [], list, group => .ok (pushGroup list group)
  | line :: rest, list, group =>
    if line = [] then specGroupFold rest (pushGroup list group) []
    else
      match Expression.from_str line with
      | .error e => .error e
      | .ok expr =>
        if expr.isState ∨ (expr.isCondition ∧ (group.getLast?.map Expression.isRule).getD false) then
          specGroupFold rest (pushGroup list group) [expr]
        else specGroupFold rest list (group ++ [expr])

/-- Specification-side grouping of a rule text. -/
def ExpressionList.spec_from_str (s : Str) : Except ExpressionError (List (List Expression)) :=
  specGroupFold (linesOf s) [] []

/-!  Specification-side reading of `EngineCtx::replace_all` (claim C8)
and the reference decomposition used to compare it with the code. -/

/-- Fueled single left-to-right scan: each occurrence of the
variable-reference pattern is replaced by the filled value, all other
text is copied unchanged. -/
def replaceAllSpecF (ctx : EngineCtx) : Nat → Str → Str
  | 0, s => s
  | _, [] => []
  | fuel + 1, c :: rest =>
    match matchVarAt (c :: rest) with
    | some p => ctx.fill (pctTrim p.1) ++ replaceAllSpecF ctx fuel p.2
    | none => c :: replaceAllSpecF ctx fuel rest

/-- Claim C8's reading of `replace_all`: substitute each occurrence of
the variable-reference pattern in place, leaving the surrounding text
unchanged. -/
def EngineCtx.replace_all_spec (ctx : EngineCtx) (expr : Str) : Str :=
  replaceAllSpecF ctx expr.length expr

/-- Has the string no percent sign? -/
def pctFree (s : Str) : Bool := ! s.contains '%'

/-- Is the string exactly one variable reference `%`, `{`, word run,
`}`? -/
def isKeyShape (k : Str) : Bool :=
  match k with
  | c0 :: c1 :: t =>
    c0 = '%' && c1 = lbr && t.dropLast ≠ [] && t.dropLast.all isWordChar && t.getLast? = some rbr
  | _ => false

/-- Decomposition of an expression into a leading reference-free segment
followed by (reference, reference-free segment) pairs. -/
abbrev RefDecomp := Str × List (Str × Str)

/-- Concatenated text of the part list. -/
def partsText (parts : List (Str × Str)) : Str :=
  parts.foldr (fun p acc => p.1 ++ p.2 ++ acc) []

/-- Text denoted by a decomposition. -/
def RefDecomp.text (d : RefDecomp) : Str := d.1 ++ partsText d.2

/-- References of a decomposition, in order. -/
def RefDecomp.keys (d : RefDecomp) : List Str := d.2.map Prod.fst

/-- Well-formedness: segments are percent-free and references are
well-shaped. -/
def RefDecomp.good (d : RefDecomp) : Prop :=
  pctFree d.1 ∧ ∀ p ∈ d.2, isKeyShape p.1 ∧ pctFree p.2

/-- Substitution of every reference of the part list by its filled
value. -/
def partsSubst (ctx : EngineCtx) (parts : List (Str × Str)) : Str :=
  parts.foldr (fun p acc => ctx.fill (pctTrim p.1) ++ p.2 ++ acc) []

/-- Substitution of every reference of a decomposition by its filled
value — the result claim C8 ascribes to `replace_all`. -/
def RefDecomp.subst (ctx : EngineCtx) (d : RefDecomp) : Str :=
  d.1 ++ partsSubst ctx d.2

/-- Effect of one `str::replace` pass with reference `k` and value `v`
on the part list: parts carrying `k` are inlined into the preceding
segment; the first component is the text to append to the preceding
segment. -/
def mergeParts (k v : Str) : List (Str × Str) → Str × List (Str × Str)
  | [] => ([], [])
  | (ki, segi) :: rest =>
    let m := mergeParts k v rest
    if ki = k then (v ++ segi ++ m.1, m.2)
    else ([], (ki, segi ++ m.1) :: m.2)

/-- Effect of one `str::replace` pass on a decomposition. -/
def RefDecomp.merge (d : RefDecomp) (k v : Str) : RefDecomp :=
  let m := mergeParts k v d.2
  (d.1 ++ m.1, m.2)

/-- The provider chain and probe oracle of the C8 counterexample: the
value of `A` is itself the reference text `%{B}`, and `B` resolves to
`y`. -/
def c8ctx : EngineCtx :=
  ⟨[fun k => if k = str "A" then some (str "%\x7bB\x7d")
             else if k = str "B" then some (str "y") else none],
   fun _ _ => false⟩

/-!  Specification-side predicates for the tokenizer (claim C9). -/

/-- Has the line no quote character? -/
def quoteFree (s : Str) : Bool := s.all (fun c => ¬ (c = quoteS ∨ c = quoteD))

/-- Length of the backslash run immediately before position `k`. -/
def bsRunBefore (l : Str) (k : Nat) : Nat :=
  ((l.take k).reverse.takeWhile (· = bsC)).length

/-- Specification predicate of claim C9: position `k` of `l` holds the
quote character `q` and the backslash run immediately before it has
even length, i.e. the quote is unescaped. -/
def unescapedAt (q : Char) (l : Str) (k : Nat) : Prop :=
  l[k]? = some q ∧ bsRunBefore l k % 2 = 0

/-- Backslash run before position `k` when the scan started with a
pending run of `b` backslashes: the run within `l`, extended by `b`
when it reaches the start of `l`. -/
def effRun (b : Nat) (l : Str) (k : Nat) : Nat :=
  if bsRunBefore l k = k then bsRunBefore l k + b else bsRunBefore l k

/-- Generalisation of `unescapedAt` to a scan entered with a pending
backslash run of length `b`. -/
def unescapedAtB (b : Nat) (q : Char) (l : Str) (k : Nat) : Prop :=
  l[k]? = some q ∧ effRun b l k % 2 = 0

/-- The OR-flagged condition of the C3 concrete scenario; its matcher
compares the literals `a` and `b`, so it is never met. -/
def c3orCond : Condition := ⟨.Pattern (str "a") .Equals (str "b"), [.Or]⟩

/-- The AND (default) condition of the C3 concrete scenario; its matcher
compares `a` with `a`, so it is always met. -/
def c3andCond : Condition := ⟨.Pattern (str "a") .Equals (str "a"), []⟩

/-- An empty context (no providers, all probes negative). -/
def emptyCtx : EngineCtx := ⟨[], fun _ _ => false⟩

deriving instance DecidableEq for Except

/-- C10: the string-pattern operators of `Pattern::matches` satisfy the
claimed collapse: `Preceeds` (`<`) and `PreceedsOrEquals` (`<=`)
evaluate identically on all operand values under either
case-sensitivity setting, as do `Follows` (`>`) and `FollowsOrEquals`
(`>=`) — each pair being the same prefix (respectively suffix) test of
the right operand against the left — so the or-equals variants, which
`Pattern::from_str` parses as distinct constructors, never change the
result. -/
theorem c10_or_equals_variants_coincide :
    (∀ v1 v2 : Value,
      Pattern.matches .Preceeds v1 v2 = Pattern.matches .PreceedsOrEquals v1 v2
      ∧ Pattern.matches .Follows v1 v2 = Pattern.matches .FollowsOrEquals v1 v2
      ∧ Pattern.matches .Preceeds v1 v2 = v2.deref.isPrefixOf v1.deref
      ∧ Pattern.matches .Follows v1 v2 = v2.deref.isSuffixOf v1.deref)
    ∧ Pattern.from_str (str "<") = .ok .Preceeds
    ∧ Pattern.from_str (str "<=") = .ok .PreceedsOrEquals
    ∧ Pattern.from_str (str ">") = .ok .Follows
    ∧ Pattern.from_str (str ">=") = .ok .FollowsOrEquals := by
  refine ⟨fun v1 v2 => ⟨rfl, rfl, ?_, ?_⟩, by decide, by decide, by decide, by decide⟩
  · cases v1 <;> rfl
  · cases v1 <;> rfl

/-- C4: `Rule::try_rewrite` returns `none` exactly when the URI does
not match the rule's pattern, and otherwise the interpolated template,
with capture substrings percent-encoded over the reserved set unless
the `NoEscape` flag is present: pattern `^/file/(.*)$` with template
`/new/$1` and flag `NE` maps `/file/hello world` to `/new/hello world`;
without `NE` the space in the capture is encoded as `%20` and a `/` as
`%2F`. -/
theorem c4_try_rewrite_match_and_escape :
    (∀ (r : Rule) (uri : Str), r.try_rewrite uri = none ↔ pmatch r.pattern uri = none)
    ∧ (Rule.from_str (str "^/file/(.*)$ /new/$1 [NE]")).map
        (fun r => r.try_rewrite (str "/file/hello world")) = .ok (some (str "/new/hello world"))
    ∧ (Rule.from_str (str "^/file/(.*)$ /new/$1")).map
        (fun r => r.try_rewrite (str "/file/hello world")) = .ok (some (str "/new/hello%20world"))
    ∧ (Rule.from_str (str "^/file/(.*)$ /new/$1")).map
        (fun r => r.try_rewrite (str "/file/a/b")) = .ok (some (str "/new/a%2Fb")) := by
  refine ⟨fun r uri => ?_, by decide, by decide, by decide⟩
  unfold Rule.try_rewrite
  cases pmatch r.pattern uri <;> simp

/-- C7: query strings are preserved and merged through rewriting:
`/static/1/2?a=b` against `/static/(.*) /files/$1 [NE,L]` yields
`Uri "/files/1/2?a=b"` (the query re-attached with `?`), and
`/1/2/3?a=b` against `/(.*) /index?page=$1` yields
`Uri "/index?page=1%2F2%2F3&a=b"` (the query appended with `&` because
the rewritten target already carries its own query component). -/
theorem c7_query_preserved_and_merged :
    (Rule.from_str (str "/static/(.*) /files/$1 [NE,L]")).map
      (fun r => (ExprGroup.new [Expression.Rule r]).rewrite (str "/static/1/2?a=b"))
      = .ok (.ok (Rewrite.Uri (str "/files/1/2?a=b")))
    ∧ (Rule.from_str (str "/(.*) /index?page=$1")).map
      (fun r => (ExprGroup.new [Expression.Rule r]).rewrite (str "/1/2/3?a=b"))
      = .ok (.ok (Rewrite.Uri (str "/index?page=1%2F2%2F3&a=b"))) :=
  ⟨by decide, by decide⟩

/-- C2 (code bug): a rule whose rewrite target is the literal token
`-` does not leave the path unchanged — `Rule::from_str` stores `-` as
an ordinary template and `Rule::try_rewrite` substitutes it, so the
path of a matching URI becomes the literal string `-`; the rule's flags
still take effect (the `Forbidden` resolve still yields status 403). -/
theorem c2_dash_target_is_substituted_literally :
    (Rule.from_str (str "a - [L]")).map (fun r => r.rewrite) = .ok (str "-")
    ∧ (Rule.from_str (str "a - [L]")).map
        (fun r => (ExprGroup.new [Expression.Rule r]).rewrite (str "a"))
        = .ok (.ok (Rewrite.Uri (str "-")))
    ∧ (Rule.from_str (str "a - [F]")).map
        (fun r => (ExprGroup.new [Expression.Rule r]).rewrite (str "a"))
        = .ok (.ok (Rewrite.StatusCode 403)) :=
  ⟨by decide, by decide, by decide⟩

/-- C3: `ExprGroup::match_conditions` returns false whenever the group
is disabled, and otherwise partitions the conditions into an OR-flagged
bucket and an AND-default bucket and returns true if and only if some
OR-condition is met or every AND-condition is met; an empty AND bucket
counts as all met and an empty OR bucket as none met, so a group with
one false OR-condition and one true AND-condition still matches
(concrete instance included). -/
theorem c3_match_conditions_two_buckets :
    (∀ (g : ExprGroup) (ctx : EngineCtx),
      g.match_conditions ctx = true ↔
        (g.enabled = true ∧
          ((∃ c ∈ g.conditions, c.is_or = true ∧ c.is_met ctx = true) ∨
           (∀ c ∈ g.conditions, c.is_or = false → c.is_met ctx = true))))
    ∧ (ExprGroup.mk [c3orCond, c3andCond] [] true 10).match_conditions emptyCtx = true
    ∧ c3orCond.is_or = true ∧ c3orCond.is_met emptyCtx = false
    ∧ c3andCond.is_or = false ∧ c3andCond.is_met emptyCtx = true := by
  refine ⟨fun g ctx => ?_, by decide, by decide, by decide, by decide, by decide⟩
  unfold ExprGroup.match_conditions
  by_cases h : g.enabled
  · simp [h, List.partition_eq_filter_filter, List.any_eq_true, List.all_eq_true,
      List.mem_filter, Function.comp]
    constructor
    · rintro (h1 | h2)
      · exact Or.inl h1
      · refine Or.inr fun c hc hno => ?_
        rcases h2 c hc with ho | hm
        · simp [ho] at hno
        · exact hm
    · rintro (h1 | h2)
      · exact Or.inl h1
      · refine Or.inr fun c hc => ?_
        rcases hb : c.is_or with _ | _
        · exact Or.inr (h2 c hc hb)
        · exact Or.inl rfl
  · simp [h]

theorem rewriteAux_error_iff (g : ExprGroup) (query : Str) :
    ∀ (fuel iterations next_index : Nat) (path : Str),
      (rewriteAux g query fuel iterations next_index path = .error .TooManyIterations ↔
        ((rewriteTraceAux g fuel iterations next_index path).2 ≠ .early ∧
          g.max_iterations ≤ (rewriteTraceAux g fuel iterations next_index path).1)) := by
  intro fuel
  induction fuel with
  | zero =>
    intro iterations next_index path
    unfold rewriteAux rewriteTraceAux loopResult
    by_cases h : g.max_iterations ≤ iterations <;> simp [h]
  | succ fuel ih =>
    intro iterations next_index path
    unfold rewriteAux rewriteTraceAux
    cases hf : findRule g.rules next_index path with
    | none =>
      unfold loopResult
      by_cases h : g.max_iterations ≤ iterations + 1 <;> simp [h]
    | some v =>
      obtain ⟨index, rule, newPath⟩ := v
      dsimp only
      cases hs : rule.shift with
      | none =>
        dsimp only
        cases hr : rule.resolve with
        | none => exact ih (iterations + 1) (index + 1) newPath
        | some r => cases r <;> simp
      | some sh =>
        cases sh with
        | Next => exact ih (iterations + 1) 0 newPath
        | Last =>
          unfold loopResult
          by_cases h : g.max_iterations ≤ iterations + 1 <;> simp [h]
        | End => simp
        | Skip n => exact ih (iterations + 1) (index + 1 + n) newPath

/-- C1 (counterexample): a group holding the single rule `a b [L]`
with `max_iterations` 1, evaluated on the URI `a`, exits its only
iteration through the `Last`-flag branch — not by exhausting the scan
range without a match — yet `ExprGroup::rewrite` returns the error
`TooManyIterations`, because the iteration counter has already reached
the cap when the exit is examined. -/
theorem c1_counterexample :
    (Rule.from_str (str "a b [L]")).map (fun r =>
      ((ExprGroup.new [Expression.Rule r]).with_max_iterations 1).rewrite (str "a"))
      = .ok (.error .TooManyIterations)
    ∧ (Rule.from_str (str "a b [L]")).map (fun r =>
      (rewriteTrace ((ExprGroup.new [Expression.Rule r]).with_max_iterations 1) (str "a")).2)
      = .ok .lastRule :=
  ⟨by decide, by decide⟩

/-- C1 (amended): `ExprGroup::rewrite` returns `TooManyIterations` if
and only if the loop performed no early return (no `End` shift, no
resolve flag) and the iteration counter on loop exit reached
`max_iterations` — regardless of whether the final iteration ended
because no rule in the scan range matched or because a matched rule
carried the `Last` flag; the claim's reading that such exits always
yield `Ok` fails on exactly those boundary cases. -/
theorem c1_too_many_iterations_iff :
    ∀ (g : ExprGroup) (uri : Str),
      g.rewrite uri = .error .TooManyIterations ↔
        ((rewriteTrace g uri).2 ≠ .early ∧ g.max_iterations ≤ (rewriteTrace g uri).1) := by
  intro g uri
  exact rewriteAux_error_iff g (split_query uri).2 g.max_iterations 0 0 (split_query uri).1

theorem except_map_eq_error {ε α β : Type} (f : α → β) (x : Except ε α) (e : ε) :
    x.map f = .error e ↔ x = .error e := by
  cases x <;> simp [Except.map]

theorem parse_int_ne_fme (s : Str) (d : Nat) :
    parse_int s d ≠ .error .FlagsMutuallyExclusive := by
  unfold parse_int
  split
  · simp
  · split <;> simp

theorem parse_status_ne_fme (s : Str) (d : Nat) :
    parse_status s d ≠ .error .FlagsMutuallyExclusive := by
  unfold parse_status
  split
  · rename_i e heq
    intro h
    injection h with h2
    exact parse_int_ne_fme s d (h2 ▸ heq)
  · split <;> simp

set_option maxHeartbeats 1000000 in
theorem ruleflag_from_str_ne_fme (s : Str) :
    RuleFlag.from_str s ≠ .error .FlagsMutuallyExclusive := by
  unfold RuleFlag.from_str
  split <;> dsimp only <;> split_ifs <;>
    first
      | (intro h; rw [except_map_eq_error] at h;
         first | exact parse_int_ne_fme _ _ h | exact parse_status_ne_fme _ _ h)
      | simp

theorem collect_ruleflag_ne_fme (l : List Str) :
    collectExcept RuleFlag.from_str l ≠ .error .FlagsMutuallyExclusive := by
  induction l with
  | nil => simp [collectExcept]
  | cons a rest ih =>
    unfold collectExcept
    cases ha : RuleFlag.from_str a with
    | error e =>
      intro h
      injection h with h2
      exact ruleflag_from_str_ne_fme a (h2 ▸ ha)
    | ok v =>
      cases hr : collectExcept RuleFlag.from_str rest with
      | error e =>
        intro h
        injection h with h2
        exact ih (h2 ▸ hr)
      | ok vs => simp

/-- C6: `RuleFlagList::from_str` fails with `FlagsMutuallyExclusive`
exactly when the bracketed, comma-split, trimmed flag list parses to a
non-empty flag list holding more than one flag of the `Shift` and
`Resolve` categories combined; in particular `[L,R=302]` fails to
compile while `[L]`, `[R=302]` and `[L,NC]` do not raise this
error. -/
theorem c6_flags_mutually_exclusive :
    (∀ s : Str, RuleFlagList.from_str s = .error .FlagsMutuallyExclusive ↔
      ((s.head? = some lsq ∧ s.getLast? = some rsq) ∧
        ∃ flags, collectExcept RuleFlag.from_str
            (((splitOnChar ',' ((s.drop 1).dropLast)).map trimWs).filter (· ≠ [])) = .ok flags
          ∧ flags ≠ []
          ∧ 1 < (flags.filter RuleFlag.isShift).length + (flags.filter RuleFlag.isResolve).length))
    ∧ Rule.from_str (str "a b [L,R=302]") = .error .FlagsMutuallyExclusive
    ∧ RuleFlagList.from_str (str "[L]") = .ok [.Shift .Last]
    ∧ RuleFlagList.from_str (str "[R=302]") = .ok [.Resolve (.Redirect 302)]
    ∧ RuleFlagList.from_str (str "[L,NC]") = .ok [.Shift .Last, .Mod .NoCase] := by
  refine ⟨fun s => ?_, by decide, by decide, by decide, by decide⟩
  unfold RuleFlagList.from_str
  by_cases hb : s.head? = some lsq ∧ s.getLast? = some rsq
  · rw [if_neg (by simpa using hb)]
    cases hc : collectExcept RuleFlag.from_str
        (((splitOnChar ',' ((s.drop 1).dropLast)).map trimWs).filter (· ≠ [])) with
    | error e =>
      constructor
      · intro h
        injection h with h2
        exact absurd (h2 ▸ hc) (collect_ruleflag_ne_fme _)
      · rintro ⟨-, flags, hf, -⟩
        cases hf
    | ok flags =>
      dsimp only
      by_cases he : flags = []
      · simp only [he, if_pos rfl]
        constructor
        · intro h; cases h
        · rintro ⟨-, flags2, hf, hne, -⟩
          injection hf with h2
          exact (hne h2.symm).elim
      · rw [if_neg he]
        by_cases hcount :
            (flags.filter RuleFlag.isShift).length + (flags.filter RuleFlag.isResolve).length > 1
        · rw [if_pos hcount]
          exact ⟨fun _ => ⟨hb, flags, rfl, he, hcount⟩, fun _ => rfl⟩
        · rw [if_neg hcount]
          constructor
          · intro h; cases h
          · rintro ⟨-, flags2, hf, -, hc2⟩
            injection hf with h2
            exact (hcount (by rw [h2]; exact hc2)).elim
  · rw [if_pos (by simpa using hb)]
    constructor
    · intro h; cases h
    · rintro ⟨hb2, -⟩
      exact absurd hb2 hb

theorem filter_push (list : List (List Expression)) (group : List Expression) :
    (list ++ [group]).filter (· ≠ []) = pushGroup (list.filter (· ≠ [])) group := by
  rw [List.filter_append]
  unfold pushGroup
  by_cases h : group = [] <;> simp [h]

theorem groupFold_spec (lines : List Str) :
    ∀ (list : List (List Expression)) (group : List Expression),
      (match groupFold lines list group with
        | .error e => .error e
        | .ok l => .ok (l.filter (· ≠ []))) = specGroupFold lines (list.filter (· ≠ [])) group := by
  induction lines with
  | nil =>
    intro list group
    unfold groupFold specGroupFold
    by_cases h : group = []
    · simp [h, pushGroup]
    · simp [h, pushGroup, List.filter_append]
  | cons line rest ih =>
    intro list group
    unfold groupFold specGroupFold
    by_cases hl : line = []
    · rw [if_pos hl, if_pos hl, ← filter_push]
      exact ih (list ++ [group]) []
    · rw [if_neg hl, if_neg hl]
      cases he : Expression.from_str line with
      | error e => rfl
      | ok expr =>
        dsimp only
        by_cases hcond :
            expr.isState = true ∨ (expr.isCondition = true ∧ (group.getLast?.map Expression.isRule).getD false = true)
        · rw [if_pos hcond, if_pos hcond, ← filter_push]
          exact ih (list ++ [group]) [expr]
        · rw [if_neg hcond, if_neg hcond]
          exact ih list (group ++ [expr])

/-- C5: `ExpressionList::from_str` groups the parsed expressions
exactly as claimed — on every input it coincides with the reference
fold in which a blank line closes the accumulating group (empty groups
being filtered out), a `State` expression closes the group and starts a
new one before being appended, a `Condition` expression directly
following a `Rule` expression in the same unclosed group does likewise,
every other expression appends to the current group, and a non-empty
pending group is flushed at end of input. -/
theorem c5_grouping_matches_spec :
    ∀ s : Str, ExpressionList.from_str s = ExpressionList.spec_from_str s := by
  intro s
  unfold ExpressionList.from_str ExpressionList.spec_from_str
  have h := groupFold_spec (linesOf s) [] []
  simpa using h

theorem quoteFree_cons {c : Char} {rest : Str} (h : quoteFree (c :: rest)) :
    ¬ (c = quoteS ∨ c = quoteD) ∧ quoteFree rest := by
  unfold quoteFree at h ⊢
  simp only [List.all_cons, Bool.and_eq_true] at h
  exact ⟨by simpa using h.1, h.2⟩

theorem tokenizeGo_quoteFree (len : Nat) :
    ∀ (rem : Str) (fuel i : Nat) (cur : Str) (acc : List Str),
      quoteFree rem → rem.length ≤ fuel →
      tokenizeGo len fuel rem i cur acc = .ok (acc ++ wsSplitAux cur rem) := by
  intro rem
  induction rem with
  | nil =>
    intro fuel i cur acc _ _
    cases fuel <;> simp [tokenizeGo, wsSplitAux]
  | cons c rest ih =>
    intro fuel i cur acc hq hf
    obtain ⟨hcq, hq2⟩ := quoteFree_cons hq
    cases fuel with
    | zero => simp at hf
    | succ fuel =>
      have hf2 : rest.length ≤ fuel := by simp at hf; omega
      unfold tokenizeGo wsSplitAux
      by_cases hw : wsChar c
      · rw [if_pos hw, if_pos hw]
        by_cases hc : cur = []
        · rw [if_pos hc, if_pos hc]
          exact ih fuel (i + 1) [] acc hq2 hf2
        · rw [if_neg hc, if_neg hc, ih fuel (i + 1) [] (acc ++ [cur]) hq2 hf2]
          simp
      · rw [if_neg hw, if_neg hw, if_neg hcq]
        exact ih fuel (i + 1) (cur ++ [c]) acc hq2 hf2

theorem wsSplitAux_ne_nil : ∀ (s cur : Str), ∀ t ∈ wsSplitAux cur s, t ≠ [] := by
  intro s
  induction s with
  | nil =>
    intro cur t ht
    unfold wsSplitAux at ht
    by_cases h : cur = []
    · simp [h] at ht
    · rw [if_neg h] at ht
      rcases List.mem_singleton.mp ht with rfl
      exact h
  | cons c rest ih =>
    intro cur t ht
    unfold wsSplitAux at ht
    by_cases hw : wsChar c
    · rw [if_pos hw] at ht
      by_cases hc : cur = []
      · rw [if_pos hc] at ht
        exact ih [] t ht
      · rw [if_neg hc] at ht
        rcases List.mem_cons.mp ht with rfl | h2
        · exact hc
        · exact ih [] t h2
    · rw [if_neg hw] at ht
      exact ih (cur ++ [c]) t ht

theorem tokenizeGo_unclosed (len : Nat) (q : Char) (suf : Str)
    (hq : q = quoteS ∨ q = quoteD) (hnone : endQuoteFind q suf 0 = none) :
    ∀ (pre : Str) (fuel i : Nat) (cur : Str) (acc : List Str),
      quoteFree pre → (pre ++ q :: suf).length ≤ fuel →
      tokenizeGo len fuel (pre ++ q :: suf) i cur acc = .error (.UnclosedQuotation (q :: suf)) := by
  intro pre
  induction pre with
  | nil =>
    intro fuel i cur acc _ hf
    cases fuel with
    | zero => simp at hf
    | succ fuel =>
      have hwq : ¬ wsChar q = true := by rcases hq with rfl | rfl <;> decide
      rw [List.nil_append]
      unfold tokenizeGo
      dsimp only
      rw [if_neg hwq, if_pos hq, hnone]
  | cons c rest ih =>
    intro fuel i cur acc hqf hf
    obtain ⟨hcq, hq2⟩ := quoteFree_cons hqf
    cases fuel with
    | zero => simp at hf
    | succ fuel =>
      have hf2 : (rest ++ q :: suf).length ≤ fuel := by simp at hf ⊢; omega
      rw [List.cons_append]
      unfold tokenizeGo
      by_cases hw : wsChar c
      · rw [if_pos hw]
        by_cases hc : cur = []
        · rw [if_pos hc]
          exact ih fuel (i + 1) [] acc hq2 hf2
        · rw [if_neg hc]
          exact ih fuel (i + 1) [] (acc ++ [cur]) hq2 hf2
      · rw [if_neg hw, if_neg hcq]
        exact ih fuel (i + 1) (cur ++ [c]) acc hq2 hf2

theorem takeWhile_append_all {p : Char → Bool} :
    ∀ {l1 : Str} (l2 : Str), l1.takeWhile p = l1 → (l1 ++ l2).takeWhile p = l1 ++ l2.takeWhile p := by
  intro l1
  induction l1 with
  | nil => intro l2 _; rfl
  | cons a t ih =>
    intro l2 h
    rw [List.takeWhile_cons] at h
    cases hp : p a with
    | false =>
      rw [hp] at h
      simp at h
    | true =>
      rw [hp] at h
      simp only [if_pos rfl] at h
      injection h with _ h2
      rw [List.cons_append, List.takeWhile_cons, hp, if_pos rfl, ih l2 h2]
      rfl

theorem takeWhile_append_ne {p : Char → Bool} :
    ∀ {l1 : Str} (l2 : Str), l1.takeWhile p ≠ l1 → (l1 ++ l2).takeWhile p = l1.takeWhile p := by
  intro l1
  induction l1 with
  | nil => intro l2 h; exact absurd rfl h
  | cons a t ih =>
    intro l2 h
    rw [List.takeWhile_cons] at h
    cases hp : p a with
    | false =>
      rw [hp] at h
      rw [List.cons_append, List.takeWhile_cons, hp, List.takeWhile_cons, hp]
      simp
    | true =>
      rw [hp] at h
      simp only [if_pos rfl] at h
      have h2 : t.takeWhile p ≠ t := fun he => h (by simp [he])
      rw [List.cons_append, List.takeWhile_cons, hp, if_pos rfl, List.takeWhile_cons, hp,
        if_pos rfl, ih l2 h2]

theorem unescapedAtB_nil (b : Nat) (q : Char) (k : Nat) : ¬ unescapedAtB b q [] k := by
  rintro ⟨h1, -⟩
  simp at h1

theorem unescapedAtB_zero (b : Nat) (q c : Char) (rest : Str) :
    unescapedAtB b q (c :: rest) 0 ↔ (c = q ∧ b % 2 = 0) := by
  unfold unescapedAtB effRun bsRunBefore
  simp

theorem bsRunBefore_le (l : Str) (k : Nat) : bsRunBefore l k ≤ k := by
  unfold bsRunBefore
  calc ((l.take k).reverse.takeWhile (· = bsC)).length
      ≤ (l.take k).reverse.length := (List.takeWhile_prefix _).length_le
    _ = (l.take k).length := by rw [List.length_reverse]
    _ ≤ k := by simp

theorem bsRun_cons_eq (c : Char) (rest : Str) (k : Nat) (hk : k ≤ rest.length)
    (h : bsRunBefore rest k = k) :
    bsRunBefore (c :: rest) (k + 1) = if c = bsC then k + 1 else k := by
  have hLlen : ((rest.take k).reverse).length = k := by simp [Nat.min_eq_left hk]
  have hall : ((rest.take k).reverse).takeWhile (· = bsC) = (rest.take k).reverse := by
    unfold bsRunBefore at h
    exact (List.takeWhile_prefix _).eq_of_length (by rw [h, hLlen])
  unfold bsRunBefore
  rw [show (c :: rest).take (k + 1) = c :: rest.take k from rfl, List.reverse_cons,
    takeWhile_append_all [c] hall]
  by_cases hc : c = bsC
  · rw [if_pos hc]
    simp [hc, hLlen]
  · rw [if_neg hc]
    have he : [c].takeWhile (· = bsC) = [] := by simp [hc]
    rw [he]
    simp [hLlen]

theorem bsRun_cons_lt (c : Char) (rest : Str) (k : Nat) (hk : k ≤ rest.length)
    (h : bsRunBefore rest k < k) :
    bsRunBefore (c :: rest) (k + 1) = bsRunBefore rest k := by
  have hLlen : ((rest.take k).reverse).length = k := by simp [Nat.min_eq_left hk]
  have hne : ((rest.take k).reverse).takeWhile (· = bsC) ≠ (rest.take k).reverse := by
    intro he
    unfold bsRunBefore at h
    rw [he, hLlen] at h
    omega
  unfold bsRunBefore
  rw [show (c :: rest).take (k + 1) = c :: rest.take k from rfl, List.reverse_cons,
    takeWhile_append_ne [c] hne]

theorem effRun_cons (b : Nat) (c : Char) (rest : Str) (k : Nat) (hk : k ≤ rest.length) :
    effRun b (c :: rest) (k + 1) = effRun (if c = bsC then b + 1 else 0) rest k := by
  have hle := bsRunBefore_le rest k
  unfold effRun
  rcases Nat.lt_or_ge (bsRunBefore rest k) k with hlt | hge
  · rw [bsRun_cons_lt c rest k hk hlt]
    split_ifs <;> omega
  · have heq : bsRunBefore rest k = k := Nat.le_antisymm hle hge
    rw [bsRun_cons_eq c rest k hk heq]
    split_ifs <;> omega

theorem unescapedAtB_succ (b : Nat) (q c : Char) (rest : Str) (k : Nat) :
    unescapedAtB b q (c :: rest) (k + 1) ↔ unescapedAtB (if c = bsC then b + 1 else 0) q rest k := by
  unfold unescapedAtB
  rw [List.getElem?_cons_succ]
  by_cases hk : k < rest.length
  · rw [effRun_cons b c rest k (Nat.le_of_lt hk)]
  · have hnone : rest[k]? = none := by
      rw [List.getElem?_eq_none_iff]
      omega
    rw [hnone]
    simp

theorem endQuoteFind_some_iff (q : Char) :
    ∀ (l : Str) (b k : Nat),
      endQuoteFind q l b = some k ↔
        (unescapedAtB b q l k ∧ ∀ j, j < k → ¬ unescapedAtB b q l j) := by
  intro l
  induction l with
  | nil =>
    intro b k
    simp only [endQuoteFind]
    constructor
    · intro h; cases h
    · rintro ⟨hu, -⟩
      exact absurd hu (unescapedAtB_nil b q k)
  | cons c rest ih =>
    intro b k
    unfold endQuoteFind
    by_cases h1 : c = q ∧ b % 2 = 0
    · rw [if_pos h1]
      constructor
      · intro h
        injection h with hk
        subst hk
        exact ⟨(unescapedAtB_zero b q c rest).mpr h1, fun j hj => absurd hj (Nat.not_lt_zero j)⟩
      · rintro ⟨hu, hleast⟩
        cases k with
        | zero => rfl
        | succ k =>
          exact absurd ((unescapedAtB_zero b q c rest).mpr h1) (hleast 0 (Nat.succ_pos k))
    · rw [if_neg h1]
      have h0 : ¬ unescapedAtB b q (c :: rest) 0 :=
        fun hu => h1 ((unescapedAtB_zero b q c rest).mp hu)
      have hrec : ∀ (b2 : Nat), (endQuoteFind q rest b2).map (· + 1) = some k ↔
          (∃ k2, endQuoteFind q rest b2 = some k2 ∧ k2 + 1 = k) := by
        intro b2
        exact Option.map_eq_some'
      by_cases h2 : c = bsC
      · rw [if_pos h2, hrec (b + 1)]
        constructor
        · rintro ⟨k2, hk2, rfl⟩
          obtain ⟨hu2, hl2⟩ := (ih (b + 1) k2).mp hk2
          refine ⟨?_, ?_⟩
          · rw [unescapedAtB_succ b q c rest k2, if_pos h2]
            exact hu2
          · intro j hj
            cases j with
            | zero => exact h0
            | succ j =>
              rw [unescapedAtB_succ b q c rest j, if_pos h2]
              exact hl2 j (by omega)
        · rintro ⟨hu, hleast⟩
          cases k with
          | zero => exact absurd hu h0
          | succ k =>
            refine ⟨k, (ih (b + 1) k).mpr ⟨?_, ?_⟩, rfl⟩
            · rw [unescapedAtB_succ b q c rest k, if_pos h2] at hu
              exact hu
            · intro j hj
              have := hleast (j + 1) (by omega)
              rw [unescapedAtB_succ b q c rest j, if_pos h2] at this
              exact this
      · rw [if_neg h2, hrec 0]
        constructor
        · rintro ⟨k2, hk2, rfl⟩
          obtain ⟨hu2, hl2⟩ := (ih 0 k2).mp hk2
          refine ⟨?_, ?_⟩
          · rw [unescapedAtB_succ b q c rest k2, if_neg h2]
            exact hu2
          · intro j hj
            cases j with
            | zero => exact h0
            | succ j =>
              rw [unescapedAtB_succ b q c rest j, if_neg h2]
              exact hl2 j (by omega)
        · rintro ⟨hu, hleast⟩
          cases k with
          | zero => exact absurd hu h0
          | succ k =>
            refine ⟨k, (ih 0 k).mpr ⟨?_, ?_⟩, rfl⟩
            · rw [unescapedAtB_succ b q c rest k, if_neg h2] at hu
              exact hu
            · intro j hj
              have := hleast (j + 1) (by omega)
              rw [unescapedAtB_succ b q c rest j, if_neg h2] at this
              exact this

theorem endQuoteFind_none_iff (q : Char) :
    ∀ (l : Str) (b : Nat),
      endQuoteFind q l b = none ↔ ∀ j, ¬ unescapedAtB b q l j := by
  intro l
  induction l with
  | nil =>
    intro b
    simp only [endQuoteFind]
    exact ⟨fun _ j => unescapedAtB_nil b q j, fun _ => trivial⟩
  | cons c rest ih =>
    intro b
    unfold endQuoteFind
    by_cases h1 : c = q ∧ b % 2 = 0
    · rw [if_pos h1]
      constructor
      · intro h; cases h
      · intro hall
        exact absurd ((unescapedAtB_zero b q c rest).mpr h1) (hall 0)
    · rw [if_neg h1]
      have h0 : ¬ unescapedAtB b q (c :: rest) 0 :=
        fun hu => h1 ((unescapedAtB_zero b q c rest).mp hu)
      by_cases h2 : c = bsC
      · rw [if_pos h2]
        rw [Option.map_eq_none']
        rw [ih (b + 1)]
        constructor
        · intro hall j
          cases j with
          | zero => exact h0
          | succ j =>
            rw [unescapedAtB_succ b q c rest j, if_pos h2]
            exact hall j
        · intro hall j
          have := hall (j + 1)
          rw [unescapedAtB_succ b q c rest j, if_pos h2] at this
          exact this
      · rw [if_neg h2]
        rw [Option.map_eq_none']
        rw [ih 0]
        constructor
        · intro hall j
          cases j with
          | zero => exact h0
          | succ j =>
            rw [unescapedAtB_succ b q c rest j, if_neg h2]
            exact hall j
        · intro hall j
          have := hall (j + 1)
          rw [unescapedAtB_succ b q c rest j, if_neg h2] at this
          exact this

theorem effRun_zero (l : Str) (k : Nat) : effRun 0 l k = bsRunBefore l k := by
  unfold effRun
  split <;> omega

theorem unescapedAtB_zero_base (q : Char) (l : Str) (k : Nat) :
    unescapedAtB 0 q l k ↔ unescapedAt q l k := by
  unfold unescapedAtB unescapedAt
  rw [effRun_zero]

theorem tokenizeGo_error (len : Nat) :
    ∀ (fuel : Nat) (rem : Str) (i : Nat) (cur : Str) (acc : List Str) (e : CondError),
      tokenizeGo len fuel rem i cur acc = .error e →
      ∃ (q : Char) (rest2 : Str), e = .UnclosedQuotation (q :: rest2)
        ∧ (q = quoteS ∨ q = quoteD) ∧ endQuoteFind q rest2 0 = none := by
  intro fuel
  induction fuel with
  | zero =>
    intro rem i cur acc e h
    cases rem <;> cases h
  | succ fuel ih =>
    intro rem i cur acc e h
    cases rem with
    | nil => cases h
    | cons c rest =>
      unfold tokenizeGo at h
      by_cases hw : wsChar c
      · rw [if_pos hw] at h
        by_cases hc : cur = []
        · rw [if_pos hc] at h
          exact ih rest (i + 1) [] acc e h
        · rw [if_neg hc] at h
          exact ih rest (i + 1) [] (acc ++ [cur]) e h
      · rw [if_neg hw] at h
        by_cases hq : c = quoteS ∨ c = quoteD
        · rw [if_pos hq] at h
          cases hk : endQuoteFind c rest 0 with
          | none =>
            rw [hk] at h
            injection h with h2
            exact ⟨c, rest, h2.symm, hq, hk⟩
          | some k =>
            rw [hk] at h
            dsimp only at h
            by_cases hcond : i + k + 2 < len - 1
            · rw [if_pos hcond] at h
              exact ih (rest.drop (k + 1)) (i + k + 2) cur (acc ++ [rest.take k]) e h
            · rw [if_neg hcond] at h
              cases h
        · rw [if_neg hq] at h
          exact ih rest (i + 1) (cur ++ [c]) acc e h

/-- C9 (amended): tokenize splits on whitespace outside quotes with
the claimed quoting and escaping rules, amended by the length bound of
the scan loop: for quote-free inputs of length at least 2 the result is
the whitespace split, which never contains empty tokens; a quote closes
at the least index holding an unescaped matching quote, where unescaped
means preceded by an even run of backslashes; the closing-quote scan
returns none exactly when no index is unescaped; an opened quote that
never closes makes tokenize fail with `UnclosedQuotation`; and every
tokenize error is such an `UnclosedQuotation` for an opened quote that
never closes. -/
theorem c9_tokenize_amended :
    (∀ s : Str, quoteFree s → 2 ≤ s.length → tokenize s = .ok (wsSplit s))
    ∧ (∀ s : Str, ∀ t ∈ wsSplit s, t ≠ [])
    ∧ (∀ (q : Char) (l : Str) (k : Nat), endQuoteFind q l 0 = some k ↔
        (unescapedAt q l k ∧ ∀ j, j < k → ¬ unescapedAt q l j))
    ∧ (∀ (q : Char) (l : Str), endQuoteFind q l 0 = none ↔ ∀ j, ¬ unescapedAt q l j)
    ∧ (∀ (pre suf : Str) (q : Char), (q = quoteS ∨ q = quoteD) → quoteFree pre →
        pre ++ suf ≠ [] → endQuoteFind q suf 0 = none →
        tokenize (pre ++ q :: suf) = .error (.UnclosedQuotation (q :: suf)))
    ∧ (∀ (s : Str) (e : CondError), tokenize s = .error e →
        ∃ (q : Char) (rest2 : Str), e = .UnclosedQuotation (q :: rest2)
          ∧ (q = quoteS ∨ q = quoteD) ∧ endQuoteFind q rest2 0 = none) := by
  refine ⟨?_, ?_, ?_, ?_, ?_, ?_⟩
  · intro s hq hlen
    unfold tokenize
    rw [if_pos (by omega)]
    exact tokenizeGo_quoteFree s.length s s.length 0 [] [] hq (le_refl _)
  · exact fun s t ht => wsSplitAux_ne_nil s [] t ht
  · intro q l k
    simp only [← unescapedAtB_zero_base]
    exact endQuoteFind_some_iff q l 0 k
  · intro q l
    simp only [← unescapedAtB_zero_base]
    exact endQuoteFind_none_iff q l 0
  · intro pre suf q hq hpre hne hnone
    unfold tokenize
    have hp : 0 < pre.length + suf.length := by
      rcases pre with _ | ⟨a, t⟩
      · rcases suf with _ | ⟨b2, t2⟩
        · exact absurd rfl hne
        · simp
      · simp
    rw [if_pos (by simp [List.length_append]; omega)]
    exact tokenizeGo_unclosed _ q suf hq hnone pre _ 0 [] [] hpre (le_refl _)
  · intro s e h
    unfold tokenize at h
    by_cases hlen : 0 < s.length - 1
    · rw [if_pos hlen] at h
      exact tokenizeGo_error s.length s.length s 0 [] [] e h
    · rw [if_neg hlen] at h
      cases h

/-- C9 (counterexample): the scan loop runs only while
`index < s.len() - 1`, so the single-character input `a` — which
whitespace splitting tokenizes as the single token `a` — yields no
tokens at all. -/
theorem c9_counterexample :
    tokenize (str "a") = .ok [] ∧ wsSplit (str "a") = [str "a"] :=
  ⟨by decide, by decide⟩

/-- A run of C9's amended theorem on concrete inputs: a quote-free
two-token line splits as claimed, and a line opening a quote that never
closes fails with `UnclosedQuotation`. -/
theorem c9_tokenize_amended_witness :
    tokenize (str "ab c") = .ok [str "ab", str "c"]
    ∧ tokenize (str "x 'abc") = .error (.UnclosedQuotation (str "'abc")) := by
  constructor
  · have h := c9_tokenize_amended.1 (str "ab c") (by decide) (by decide)
    rw [h]
    decide
  · have h := c9_tokenize_amended.2.2.2.2.1 (str "x ") (str "abc") quoteS (Or.inl rfl)
      (by decide) (by decide) (by decide)
    have he : str "x 'abc" = (str "x ") ++ quoteS :: (str "abc") := by decide
    have he2 : (str "'abc" : Str) = quoteS :: (str "abc") := by decide
    rw [he, he2]
    exact h

theorem replaceSubF_irrel (pat rep : Str) :
    ∀ (fuel : Nat) (fuel2 : Nat) (s : Str), s.length ≤ fuel → s.length ≤ fuel2 →
      replaceSubF pat rep fuel s = replaceSubF pat rep fuel2 s := by
  intro fuel
  induction fuel with
  | zero =>
    intro fuel2 s hf _
    have : s = [] := List.length_eq_zero.mp (Nat.le_zero.mp hf)
    subst this
    cases fuel2 <;> rfl
  | succ fuel ih =>
    intro fuel2 s hf hf2
    cases s with
    | nil => cases fuel2 <;> rfl
    | cons c s2 =>
      cases fuel2 with
      | zero => simp at hf2
      | succ fuel2 =>
        unfold replaceSubF
        by_cases hp : pat ≠ [] ∧ pat.isPrefixOf (c :: s2)
        · rw [if_pos hp, if_pos hp]
          have hlen : ((c :: s2).drop pat.length).length ≤ fuel := by
            have : 1 ≤ pat.length := by
              cases pat with
              | nil => exact absurd rfl hp.1
              | cons _ _ => simp
            simp only [List.length_drop, List.length_cons]
            simp at hf
            omega
          have hlen2 : ((c :: s2).drop pat.length).length ≤ fuel2 := by
            have : 1 ≤ pat.length := by
              cases pat with
              | nil => exact absurd rfl hp.1
              | cons _ _ => simp
            simp only [List.length_drop, List.length_cons]
            simp at hf2
            omega
          rw [ih fuel2 _ hlen hlen2]
        · rw [if_neg hp, if_neg hp]
          have h1 : s2.length ≤ fuel := by simp at hf; omega
          have h2 : s2.length ≤ fuel2 := by simp at hf2; omega
          rw [ih fuel2 s2 h1 h2]

theorem replaceSub_nil (pat rep : Str) : replaceSub [] pat rep = [] := rfl

theorem replaceSub_cons (c : Char) (s pat rep : Str) :
    replaceSub (c :: s) pat rep =
      if pat ≠ [] ∧ pat.isPrefixOf (c :: s) then rep ++ replaceSub ((c :: s).drop pat.length) pat rep
      else c :: replaceSub s pat rep := by
  have step : replaceSubF pat rep (s.length + 1) (c :: s) =
      if pat ≠ [] ∧ pat.isPrefixOf (c :: s) then
        rep ++ replaceSubF pat rep s.length ((c :: s).drop pat.length)
      else c :: replaceSubF pat rep s.length s := rfl
  show replaceSubF pat rep (c :: s).length (c :: s) = _
  rw [show ((c :: s) : Str).length = s.length + 1 from rfl, step]
  by_cases hp : pat ≠ [] ∧ pat.isPrefixOf (c :: s)
  · rw [if_pos hp, if_pos hp]
    have h1 : 1 ≤ pat.length := by
      cases pat with
      | nil => exact absurd rfl hp.1
      | cons _ _ => simp
    have hlen : ((c :: s).drop pat.length).length ≤ s.length := by
      simp only [List.length_drop, List.length_cons]
      omega
    exact congrArg (rep ++ ·)
      (replaceSubF_irrel pat rep s.length ((c :: s).drop pat.length).length _ hlen (le_refl _))
  · rw [if_neg hp, if_neg hp]
    rfl

theorem matchVarAt_some_decomp (s : Str) (p : Str × Str) (h : matchVarAt s = some p) :
    s = p.1 ++ p.2 ∧ p.1 ≠ [] := by
  unfold matchVarAt at h
  split at h
  · next c0 c1 t =>
    split at h
    · next hc =>
      dsimp only at h
      split at h
      · cases h
      · next hw =>
        split at h
        · next c2 t2 hd =>
          split at h
          · next hr =>
            injection h with h2
            subst h2
            obtain ⟨u, hu⟩ := List.takeWhile_prefix (l := t) (p := isWordChar)
            have hkey : (List.takeWhile isWordChar t ++ u).drop (List.takeWhile isWordChar t).length = u :=
              List.drop_left _ _
            rw [hu, hd] at hkey
            constructor
            · show c0 :: c1 :: t = (c0 :: c1 :: (List.takeWhile isWordChar t ++ [c2])) ++ t2
              rw [List.cons_append, List.cons_append, List.append_assoc]
              simp only [List.singleton_append]
              rw [hkey, hu]
            · simp
          · cases h
        · cases h
    · cases h
  · cases h

theorem findMatchesF_irrel :
    ∀ (fuel fuel2 : Nat) (s : Str), s.length ≤ fuel → s.length ≤ fuel2 →
      findMatchesF fuel s = findMatchesF fuel2 s := by
  intro fuel
  induction fuel with
  | zero =>
    intro fuel2 s hf _
    have : s = [] := List.length_eq_zero.mp (Nat.le_zero.mp hf)
    subst this
    cases fuel2 <;> rfl
  | succ fuel ih =>
    intro fuel2 s hf hf2
    cases s with
    | nil => cases fuel2 <;> rfl
    | cons c s2 =>
      cases fuel2 with
      | zero => simp at hf2
      | succ fuel2 =>
        unfold findMatchesF
        cases hm : matchVarAt (c :: s2) with
        | none =>
          have h1 : s2.length ≤ fuel := by simp at hf; omega
          have h2 : s2.length ≤ fuel2 := by simp at hf2; omega
          rw [ih fuel2 s2 h1 h2]
        | some p =>
          obtain ⟨hdec, hne⟩ := matchVarAt_some_decomp _ p hm
          have hlen : p.2.length ≤ fuel := by
            have : (c :: s2).length = p.1.length + p.2.length := by
              rw [hdec, List.length_append]
            have h1 : 1 ≤ p.1.length := by
              cases hp1 : p.1 with
              | nil => exact absurd hp1 hne
              | cons _ _ => simp
            simp at hf this
            omega
          have hlen2 : p.2.length ≤ fuel2 := by
            have : (c :: s2).length = p.1.length + p.2.length := by
              rw [hdec, List.length_append]
            have h1 : 1 ≤ p.1.length := by
              cases hp1 : p.1 with
              | nil => exact absurd hp1 hne
              | cons _ _ => simp
            simp at hf2 this
            omega
          dsimp only
          rw [ih fuel2 p.2 hlen hlen2]

theorem findMatches_cons (c : Char) (s : Str) :
    findMatches (c :: s) =
      match matchVarAt (c :: s) with
      | some p => p.1 :: findMatches p.2
      | none => findMatches s := by
  have step : findMatchesF (s.length + 1) (c :: s) =
      (match matchVarAt (c :: s) with
        | some p => p.1 :: findMatchesF s.length p.2
        | none => findMatchesF s.length s) := rfl
  show findMatchesF (c :: s).length (c :: s) = _
  rw [show ((c :: s) : Str).length = s.length + 1 from rfl, step]
  cases hm : matchVarAt (c :: s) with
  | none => rfl
  | some p =>
    obtain ⟨hdec, hne⟩ := matchVarAt_some_decomp _ p hm
    have hlen : p.2.length ≤ s.length := by
      have : (c :: s).length = p.1.length + p.2.length := by
        rw [hdec, List.length_append]
      have h1 : 1 ≤ p.1.length := by
        cases hp1 : p.1 with
        | nil => exact absurd hp1 hne
        | cons _ _ => simp
      simp at this
      omega
    exact congrArg (p.1 :: ·) (findMatchesF_irrel s.length p.2.length p.2 hlen (le_refl _))

theorem replaceAllSpecF_irrel (ctx : EngineCtx) :
    ∀ (fuel fuel2 : Nat) (s : Str), s.length ≤ fuel → s.length ≤ fuel2 →
      replaceAllSpecF ctx fuel s = replaceAllSpecF ctx fuel2 s := by
  intro fuel
  induction fuel with
  | zero =>
    intro fuel2 s hf _
    have : s = [] := List.length_eq_zero.mp (Nat.le_zero.mp hf)
    subst this
    cases fuel2 <;> rfl
  | succ fuel ih =>
    intro fuel2 s hf hf2
    cases s with
    | nil => cases fuel2 <;> rfl
    | cons c s2 =>
      cases fuel2 with
      | zero => simp at hf2
      | succ fuel2 =>
        unfold replaceAllSpecF
        cases hm : matchVarAt (c :: s2) with
        | none =>
          have h1 : s2.length ≤ fuel := by simp at hf; omega
          have h2 : s2.length ≤ fuel2 := by simp at hf2; omega
          rw [ih fuel2 s2 h1 h2]
        | some p =>
          obtain ⟨hdec, hne⟩ := matchVarAt_some_decomp _ p hm
          have hlen : p.2.length ≤ fuel := by
            have : (c :: s2).length = p.1.length + p.2.length := by
              rw [hdec, List.length_append]
            have h1 : 1 ≤ p.1.length := by
              cases hp1 : p.1 with
              | nil => exact absurd hp1 hne
              | cons _ _ => simp
            simp at hf this
            omega
          have hlen2 : p.2.length ≤ fuel2 := by
            have : (c :: s2).length = p.1.length + p.2.length := by
              rw [hdec, List.length_append]
            have h1 : 1 ≤ p.1.length := by
              cases hp1 : p.1 with
              | nil => exact absurd hp1 hne
              | cons _ _ => simp
            simp at hf2 this
            omega
          dsimp only
          rw [ih fuel2 p.2 hlen hlen2]

theorem replace_all_spec_cons (ctx : EngineCtx) (c : Char) (s : Str) :
    ctx.replace_all_spec (c :: s) =
      match matchVarAt (c :: s) with
      | some p => ctx.fill (pctTrim p.1) ++ ctx.replace_all_spec p.2
      | none => c :: ctx.replace_all_spec s := by
  have step : replaceAllSpecF ctx (s.length + 1) (c :: s) =
      (match matchVarAt (c :: s) with
        | some p => ctx.fill (pctTrim p.1) ++ replaceAllSpecF ctx s.length p.2
        | none => c :: replaceAllSpecF ctx s.length s) := rfl
  show replaceAllSpecF ctx (c :: s).length (c :: s) = _
  rw [show ((c :: s) : Str).length = s.length + 1 from rfl, step]
  cases hm : matchVarAt (c :: s) with
  | none => rfl
  | some p =>
    obtain ⟨hdec, hne⟩ := matchVarAt_some_decomp _ p hm
    have hlen : p.2.length ≤ s.length := by
      have : (c :: s).length = p.1.length + p.2.length := by
        rw [hdec, List.length_append]
      have h1 : 1 ≤ p.1.length := by
        cases hp1 : p.1 with
        | nil => exact absurd hp1 hne
        | cons _ _ => simp
      simp at this
      omega
    exact congrArg (ctx.fill (pctTrim p.1) ++ ·)
      (replaceAllSpecF_irrel ctx s.length p.2.length p.2 hlen (le_refl _))

theorem matchVarAt_not_pct (c : Char) (rest : Str) (hc : c ≠ '%') :
    matchVarAt (c :: rest) = none := by
  unfold matchVarAt
  cases rest with
  | nil => rfl
  | cons c1 t =>
    dsimp only
    rw [if_neg (fun hand => hc hand.1)]

theorem takeWhile_all (l : Str) (p : Char → Bool) (h : l.all p = true) :
    l.takeWhile p = l := by
  induction l with
  | nil => rfl
  | cons a t ih =>
    simp only [List.all_cons, Bool.and_eq_true] at h
    rw [List.takeWhile_cons, h.1, if_pos rfl, ih h.2]

theorem isKeyShape_decomp (k : Str) (h : isKeyShape k = true) :
    ∃ w : Str, w ≠ [] ∧ w.all isWordChar = true ∧ k = '%' :: lbr :: (w ++ [rbr]) := by
  unfold isKeyShape at h
  cases k with
  | nil => cases h
  | cons c0 t0 =>
    cases t0 with
    | nil => cases h
    | cons c1 t =>
      dsimp only at h
      simp only [Bool.and_eq_true, decide_eq_true_eq] at h
      obtain ⟨⟨⟨⟨hc0, hc1⟩, hne⟩, hall⟩, hlast⟩ := h
      have htne : t ≠ [] := by
        intro he
        rw [he] at hne
        exact hne rfl
      have hlast2 : t.getLast htne = rbr := by
        have := List.getLast?_eq_getLast t htne
        rw [hlast] at this
        injection this with h2
        exact h2.symm
      refine ⟨t.dropLast, hne, hall, ?_⟩
      rw [hc0, hc1]
      have := List.dropLast_append_getLast htne
      rw [hlast2] at this
      rw [this]

theorem word_ne_pct {c : Char} (h : isWordChar c = true) : c ≠ '%' := by
  intro he
  subst he
  exact absurd h (by decide)

theorem isKeyShape_head (k : Str) (h : isKeyShape k = true) : k.head? = some '%' := by
  obtain ⟨w, -, -, hk⟩ := isKeyShape_decomp k h
  rw [hk]
  rfl

theorem isKeyShape_ne_nil (k : Str) (h : isKeyShape k = true) : k ≠ [] := by
  obtain ⟨w, -, -, hk⟩ := isKeyShape_decomp k h
  rw [hk]
  simp

theorem matchVarAt_key_form (w b : Str) (hne : w ≠ []) (hall : w.all isWordChar = true) :
    matchVarAt ('%' :: lbr :: (w ++ rbr :: b)) = some ('%' :: lbr :: (w ++ [rbr]), b) := by
  have htw : (w ++ rbr :: b).takeWhile isWordChar = w := by
    rw [takeWhile_append_all _ (takeWhile_all w isWordChar hall), List.takeWhile_cons,
      show isWordChar rbr = false from by decide]
    simp
  unfold matchVarAt
  dsimp only
  rw [if_pos ⟨rfl, rfl⟩, htw, if_neg hne, List.drop_left]
  dsimp only
  rw [if_pos rfl]

theorem matchVarAt_key (k b : Str) (h : isKeyShape k = true) :
    matchVarAt (k ++ b) = some (k, b) := by
  obtain ⟨w, hne, hall, hk⟩ := isKeyShape_decomp k h
  subst hk
  have : ('%' :: lbr :: (w ++ [rbr])) ++ b = '%' :: lbr :: (w ++ rbr :: b) := by
    simp
  rw [this, matchVarAt_key_form w b hne hall]

theorem pctFree_chars {s : Str} (h : pctFree s = true) : ∀ c ∈ s, c ≠ '%' := by
  intro c hc he
  subst he
  unfold pctFree at h
  simp at h
  exact h hc

theorem spec_append_seg (ctx : EngineCtx) :
    ∀ (a rest : Str), (∀ c ∈ a, c ≠ '%') →
      ctx.replace_all_spec (a ++ rest) = a ++ ctx.replace_all_spec rest := by
  intro a
  induction a with
  | nil => intro rest _; rfl
  | cons c a2 ih =>
    intro rest h
    rw [List.cons_append, replace_all_spec_cons,
      matchVarAt_not_pct c (a2 ++ rest) (h c (List.mem_cons_self c a2))]
    dsimp only
    rw [ih rest (fun c2 hc2 => h c2 (List.mem_cons_of_mem c hc2))]
    rfl

theorem spec_key (ctx : EngineCtx) (k rest : Str) (h : isKeyShape k = true) :
    ctx.replace_all_spec (k ++ rest) = ctx.fill (pctTrim k) ++ ctx.replace_all_spec rest := by
  have hm := matchVarAt_key k rest h
  cases hk : k with
  | nil => exact absurd hk (isKeyShape_ne_nil k h)
  | cons c0 kt =>
    rw [hk] at hm
    rw [List.cons_append] at hm
    rw [List.cons_append, replace_all_spec_cons, hm]

theorem findMatches_seg :
    ∀ (a rest : Str), (∀ c ∈ a, c ≠ '%') → findMatches (a ++ rest) = findMatches rest := by
  intro a
  induction a with
  | nil => intro rest _; rfl
  | cons c a2 ih =>
    intro rest h
    rw [List.cons_append, findMatches_cons,
      matchVarAt_not_pct c (a2 ++ rest) (h c (List.mem_cons_self c a2))]
    exact ih rest (fun c2 hc2 => h c2 (List.mem_cons_of_mem c hc2))

theorem findMatches_key (k rest : Str) (h : isKeyShape k = true) :
    findMatches (k ++ rest) = k :: findMatches rest := by
  have hm := matchVarAt_key k rest h
  cases hk : k with
  | nil => exact absurd hk (isKeyShape_ne_nil k h)
  | cons c0 kt =>
    rw [hk] at hm
    rw [List.cons_append] at hm
    rw [List.cons_append, findMatches_cons, hm]

theorem isPrefixOf_head_ne {pat : Str} {c : Char} (hh : pat.head? = some '%') (hc : c ≠ '%')
    (x : Str) : pat.isPrefixOf (c :: x) = false := by
  cases pat with
  | nil => cases hh
  | cons p0 pt =>
    injection hh with h0
    subst h0
    show (('%' == c) && pt.isPrefixOf x) = false
    rw [beq_eq_false_iff_ne.mpr (Ne.symm hc)]
    simp

theorem replaceSub_seg :
    ∀ (a b pat rep : Str), (∀ c ∈ a, c ≠ '%') → pat.head? = some '%' →
      replaceSub (a ++ b) pat rep = a ++ replaceSub b pat rep := by
  intro a
  induction a with
  | nil => intro b pat rep _ _; rfl
  | cons c a2 ih =>
    intro b pat rep h hh
    rw [List.cons_append, replaceSub_cons,
      if_neg (fun hand => by
        have := isPrefixOf_head_ne hh (h c (List.mem_cons_self c a2)) (a2 ++ b)
        rw [hand.2] at this
        cases this)]
    rw [ih b pat rep (fun c2 hc2 => h c2 (List.mem_cons_of_mem c hc2)) hh, List.cons_append]

theorem isPrefixOf_append_self : ∀ (k b : Str), k.isPrefixOf (k ++ b) = true := by
  intro k
  induction k with
  | nil => intro b; cases b <;> rfl
  | cons a kt ih =>
    intro b
    show ((a == a) && kt.isPrefixOf (kt ++ b)) = true
    rw [beq_self_eq_true, ih b]
    rfl

theorem replaceSub_key_self (k b rep : Str) (hk : k ≠ []) :
    replaceSub (k ++ b) k rep = rep ++ replaceSub b k rep := by
  cases hke : k with
  | nil => exact absurd hke hk
  | cons c kt =>
    rw [hke] at hk
    rw [List.cons_append, replaceSub_cons,
      if_pos ⟨hk, by rw [← List.cons_append]; exact isPrefixOf_append_self _ b⟩,
      ← List.cons_append, List.drop_left]

theorem word_run_eq :
    ∀ (w w2 : Str), w.all isWordChar = true → w2.all isWordChar = true →
      ∀ (t t2 : Str), (w ++ rbr :: t) <+: (w2 ++ rbr :: t2) → w = w2 := by
  intro w
  induction w with
  | nil =>
    intro w2 _ hall2 t t2 hp
    cases w2 with
    | nil => rfl
    | cons a w2' =>
      rw [List.nil_append, List.cons_append] at hp
      obtain ⟨he, -⟩ := List.cons_prefix_cons.mp hp
      simp only [List.all_cons, Bool.and_eq_true] at hall2
      have : isWordChar rbr = true := by rw [he]; exact hall2.1
      exact absurd this (by decide)
  | cons a w' ih =>
    intro w2 hall hall2 t t2 hp
    cases w2 with
    | nil =>
      rw [List.nil_append, List.cons_append] at hp
      obtain ⟨he, -⟩ := List.cons_prefix_cons.mp hp
      simp only [List.all_cons, Bool.and_eq_true] at hall
      have : isWordChar rbr = true := by rw [← he]; exact hall.1
      exact absurd this (by decide)
    | cons a2 w2' =>
      rw [List.cons_append, List.cons_append] at hp
      obtain ⟨he, hp2⟩ := List.cons_prefix_cons.mp hp
      simp only [List.all_cons, Bool.and_eq_true] at hall hall2
      rw [he, ih w2' hall.2 hall2.2 t t2 hp2]

theorem key_not_prefix (k k2 b : Str) (hk : isKeyShape k = true) (hk2 : isKeyShape k2 = true)
    (hne : k ≠ k2) : ¬ (k.isPrefixOf (k2 ++ b) = true) := by
  intro hp
  rw [List.isPrefixOf_iff_prefix] at hp
  obtain ⟨w, hwne, hwall, hkeq⟩ := isKeyShape_decomp k hk
  obtain ⟨w2, hw2ne, hw2all, hk2eq⟩ := isKeyShape_decomp k2 hk2
  subst hkeq
  subst hk2eq
  rw [List.cons_append, List.cons_append, List.append_assoc] at hp
  obtain ⟨-, hp2⟩ := List.cons_prefix_cons.mp hp
  obtain ⟨-, hp3⟩ := List.cons_prefix_cons.mp hp2
  have := word_run_eq w w2 hwall hw2all [] b (by simpa using hp3)
  exact hne (by rw [this])

theorem isKeyShape_tail_chars (k : Str) (h : isKeyShape k = true) :
    ∀ c ∈ k.tail, c ≠ '%' := by
  obtain ⟨w, hne, hall, hk⟩ := isKeyShape_decomp k h
  subst hk
  intro c hc
  simp only [List.tail_cons] at hc
  rcases List.mem_cons.mp hc with rfl | hc2
  · decide
  · rcases List.mem_append.mp hc2 with h3 | h3
    · exact word_ne_pct (by
        have := List.all_eq_true.mp hall
        exact this c h3)
    · rcases List.mem_singleton.mp h3 with rfl
      decide

theorem replaceSub_key_other (k k2 b rep : Str) (hk : isKeyShape k = true)
    (hk2 : isKeyShape k2 = true) (hne : k2 ≠ k) :
    replaceSub (k2 ++ b) k rep = k2 ++ replaceSub b k rep := by
  have hnp := key_not_prefix k k2 b hk hk2 (fun he => hne he.symm)
  have htail := isKeyShape_tail_chars k2 hk2
  have hhead := isKeyShape_head k2 hk2
  cases k2 with
  | nil => cases hhead
  | cons c0 kt =>
    simp only [List.tail_cons] at htail
    rw [List.cons_append] at hnp
    rw [List.cons_append, replaceSub_cons, if_neg (fun hand => hnp hand.2)]
    rw [replaceSub_seg kt b k rep htail (isKeyShape_head k hk), List.cons_append]

theorem pctFree_iff (s : Str) : pctFree s = true ↔ '%' ∉ s := by
  unfold pctFree
  simp

theorem pctFree_append (a b : Str) :
    pctFree (a ++ b) = true ↔ (pctFree a = true ∧ pctFree b = true) := by
  simp [pctFree_iff, List.mem_append]

theorem partsText_cons (p : Str × Str) (rest : List (Str × Str)) :
    partsText (p :: rest) = p.1 ++ p.2 ++ partsText rest := rfl

theorem partsSubst_cons (ctx : EngineCtx) (p : Str × Str) (rest : List (Str × Str)) :
    partsSubst ctx (p :: rest) = ctx.fill (pctTrim p.1) ++ p.2 ++ partsSubst ctx rest := rfl

theorem mergeParts_cons (k v : Str) (ki segi : Str) (rest : List (Str × Str)) :
    mergeParts k v ((ki, segi) :: rest) =
      if ki = k then (v ++ segi ++ (mergeParts k v rest).1, (mergeParts k v rest).2)
      else ([], (ki, segi ++ (mergeParts k v rest).1) :: (mergeParts k v rest).2) := rfl

theorem mergeParts_spec (ctx : EngineCtx) (k v : Str) (hk : isKeyShape k = true)
    (hv : pctFree v = true) :
    ∀ parts : List (Str × Str), (∀ p ∈ parts, isKeyShape p.1 = true ∧ pctFree p.2 = true) →
      replaceSub (partsText parts) k v
          = (mergeParts k v parts).1 ++ partsText (mergeParts k v parts).2
      ∧ pctFree (mergeParts k v parts).1 = true
      ∧ (∀ p ∈ (mergeParts k v parts).2, isKeyShape p.1 = true ∧ pctFree p.2 = true)
      ∧ (v = ctx.fill (pctTrim k) →
          (mergeParts k v parts).1 ++ partsSubst ctx (mergeParts k v parts).2
            = partsSubst ctx parts)
      ∧ (mergeParts k v parts).2.map Prod.fst = (parts.map Prod.fst).filter (· ≠ k) := by
  intro parts
  induction parts with
  | nil =>
    intro _
    refine ⟨rfl, rfl, ?_, fun _ => rfl, rfl⟩
    intro p hp
    simp [mergeParts] at hp
  | cons p rest ih =>
    intro hgood
    obtain ⟨hpk, hpv⟩ := hgood p (List.mem_cons_self p rest)
    have hrest : ∀ p2 ∈ rest, isKeyShape p2.1 = true ∧ pctFree p2.2 = true :=
      fun p2 hp2 => hgood p2 (List.mem_cons_of_mem p hp2)
    obtain ⟨ih1, ih2, ih3, ih4, ih5⟩ := ih hrest
    obtain ⟨ki, segi⟩ := p
    dsimp only at hpk hpv
    by_cases hki : ki = k
    · rw [mergeParts_cons, if_pos hki]
      refine ⟨?_, ?_, ?_, ?_, ?_⟩
      · rw [partsText_cons]
        dsimp only
        rw [hki, List.append_assoc,
          replaceSub_key_self k (segi ++ partsText rest) v (isKeyShape_ne_nil k hk),
          replaceSub_seg segi (partsText rest) k v (pctFree_chars hpv) (isKeyShape_head k hk),
          ih1]
        simp [List.append_assoc]
      · dsimp only
        rw [List.append_assoc, pctFree_append]
        exact ⟨hv, (pctFree_append _ _).mpr ⟨hpv, ih2⟩⟩
      · exact ih3
      · intro hveq
        dsimp only
        rw [partsSubst_cons]
        dsimp only
        rw [List.append_assoc, List.append_assoc, ih4 hveq, hveq, hki]
        simp [List.append_assoc]
      · dsimp only
        rw [ih5, List.map_cons]
        dsimp only
        rw [List.filter_cons, show (decide (ki ≠ k)) = false by simp [hki]]
        simp
    · rw [mergeParts_cons, if_neg hki]
      refine ⟨?_, ?_, ?_, ?_, ?_⟩
      · rw [partsText_cons]
        dsimp only
        rw [List.append_assoc, replaceSub_key_other k ki (segi ++ partsText rest) v hk hpk hki,
          replaceSub_seg segi (partsText rest) k v (pctFree_chars hpv) (isKeyShape_head k hk),
          ih1, partsText_cons]
        simp [List.append_assoc]
      · rfl
      · intro p2 hp2
        rcases List.mem_cons.mp hp2 with rfl | hp3
        · exact ⟨hpk, (pctFree_append segi (mergeParts k v rest).1).mpr ⟨hpv, ih2⟩⟩
        · exact ih3 p2 hp3
      · intro hveq
        dsimp only
        rw [List.nil_append, partsSubst_cons, partsSubst_cons]
        dsimp only
        rw [List.append_assoc, List.append_assoc, ih4 hveq]
        simp [List.append_assoc]
      · dsimp only
        rw [List.map_cons, List.map_cons]
        dsimp only
        rw [ih5, List.filter_cons, show (decide (ki ≠ k)) = true by simp [hki]]
        simp

theorem spec_decomp (ctx : EngineCtx) :
    ∀ parts : List (Str × Str), (∀ q ∈ parts, isKeyShape q.1 = true ∧ pctFree q.2 = true) →
      ctx.replace_all_spec (partsText parts) = partsSubst ctx parts := by
  intro parts
  induction parts with
  | nil => intro _; rfl
  | cons q rest ih =>
    intro h
    obtain ⟨hk, hs⟩ := h q (List.mem_cons_self q rest)
    have hrest := fun q2 hq2 => h q2 (List.mem_cons_of_mem q hq2)
    rw [partsText_cons, List.append_assoc, spec_key ctx q.1 _ hk,
      spec_append_seg ctx q.2 _ (pctFree_chars hs), ih hrest, partsSubst_cons,
      List.append_assoc]

theorem findMatches_parts :
    ∀ parts : List (Str × Str), (∀ q ∈ parts, isKeyShape q.1 = true ∧ pctFree q.2 = true) →
      findMatches (partsText parts) = parts.map Prod.fst := by
  intro parts
  induction parts with
  | nil => intro _; rfl
  | cons q rest ih =>
    intro h
    obtain ⟨hk, hs⟩ := h q (List.mem_cons_self q rest)
    have hrest := fun q2 hq2 => h q2 (List.mem_cons_of_mem q hq2)
    rw [partsText_cons, List.append_assoc, findMatches_key q.1 _ hk,
      findMatches_seg q.2 _ (pctFree_chars hs), ih hrest, List.map_cons]

theorem foldl_merge (ctx : EngineCtx) :
    ∀ (ks : List Str) (p : Str × List (Str × Str)),
      pctFree p.1 = true →
      (∀ q ∈ p.2, isKeyShape q.1 = true ∧ pctFree q.2 = true) →
      (∀ k ∈ ks, isKeyShape k = true ∧ pctFree (ctx.fill (pctTrim k)) = true) →
      ∃ p2 : Str × List (Str × Str),
        List.foldl (fun acc key => replaceSub acc key (ctx.fill (pctTrim key)))
            (p.1 ++ partsText p.2) ks
          = p2.1 ++ partsText p2.2
        ∧ p2.1 ++ partsSubst ctx p2.2 = p.1 ++ partsSubst ctx p.2
        ∧ (∀ x ∈ p2.2.map Prod.fst, x ∈ p.2.map Prod.fst ∧ x ∉ ks) := by
  intro ks
  induction ks with
  | nil =>
    intro p hp1 hp2 _
    exact ⟨p, rfl, rfl, fun x hx => ⟨hx, by simp⟩⟩
  | cons k ks ih =>
    intro p hp1 hp2 hks
    obtain ⟨hk, hkv⟩ := hks k (List.mem_cons_self k ks)
    have hks2 := fun k2 h2 => hks k2 (List.mem_cons_of_mem k h2)
    obtain ⟨m1, m2, m3, m4, m5⟩ :=
      mergeParts_spec ctx k (ctx.fill (pctTrim k)) hk hkv p.2 hp2
    have hstep : replaceSub (p.1 ++ partsText p.2) k (ctx.fill (pctTrim k))
        = (p.1 ++ (mergeParts k (ctx.fill (pctTrim k)) p.2).1)
            ++ partsText (mergeParts k (ctx.fill (pctTrim k)) p.2).2 := by
      rw [replaceSub_seg p.1 (partsText p.2) k _ (pctFree_chars hp1) (isKeyShape_head k hk),
        m1, List.append_assoc]
    obtain ⟨p2, h1, h2, h3⟩ :=
      ih (p.1 ++ (mergeParts k (ctx.fill (pctTrim k)) p.2).1,
          (mergeParts k (ctx.fill (pctTrim k)) p.2).2)
        ((pctFree_append _ _).mpr ⟨hp1, m2⟩) m3 hks2
    refine ⟨p2, ?_, ?_, ?_⟩
    · rw [List.foldl_cons, hstep]
      exact h1
    · rw [h2]
      dsimp only
      rw [List.append_assoc, m4 rfl]
    · intro x hx
      obtain ⟨hx1, hx2⟩ := h3 x hx
      dsimp only at hx1
      rw [m5, List.mem_filter] at hx1
      refine ⟨hx1.1, ?_⟩
      intro hc
      rcases List.mem_cons.mp hc with he | hm
      · exact (of_decide_eq_true hx1.2) he
      · exact hx2 hm

/-- C8 (counterexample): with providers resolving `A` to the literal text
of a `B` reference and `B` to `y`, `replace_all` on an expression holding
both references yields `y y` — the reference text introduced by the value
of `A` is re-substituted by the later `str::replace` pass for `B` — while
the claimed in-place single substitution yields the distinct string that
keeps that introduced text verbatim. -/
theorem c8_counterexample :
    EngineCtx.replace_all c8ctx (str "%\x7bA\x7d %\x7bB\x7d") = str "y y"
    ∧ EngineCtx.replace_all_spec c8ctx (str "%\x7bA\x7d %\x7bB\x7d") = str "%\x7bB\x7d y"
    ∧ EngineCtx.replace_all c8ctx (str "%\x7bA\x7d %\x7bB\x7d")
        ≠ EngineCtx.replace_all_spec c8ctx (str "%\x7bA\x7d %\x7bB\x7d") := by
  refine ⟨by decide, by decide, by decide⟩

/-- C8 (amended): on any expression decomposing into percent-free
segments separated by well-formed `%\x7bword\x7d` references, provided every
reference resolves to a percent-free value, `replace_all` agrees with the
claimed behaviour: each reference occurrence is substituted in place by
the first provider hit (empty when unresolved) and all surrounding text
is left unchanged. -/
theorem c8_replace_all_amended (ctx : EngineCtx) (d : RefDecomp) (hg : d.good)
    (hv : ∀ k ∈ d.keys, pctFree (ctx.fill (pctTrim k)) = true) :
    ctx.replace_all d.text = ctx.replace_all_spec d.text := by
  obtain ⟨hd1, hd2⟩ := hg
  have hkeys : ∀ k ∈ d.2.map Prod.fst,
      isKeyShape k = true ∧ pctFree (ctx.fill (pctTrim k)) = true := by
    intro k hkmem
    refine ⟨?_, hv k hkmem⟩
    obtain ⟨q, hq, he⟩ := List.mem_map.mp hkmem
    rw [← he]
    exact (hd2 q hq).1
  have hspec : ctx.replace_all_spec d.text = d.1 ++ partsSubst ctx d.2 := by
    show ctx.replace_all_spec (d.1 ++ partsText d.2) = _
    rw [spec_append_seg ctx d.1 _ (pctFree_chars hd1), spec_decomp ctx d.2 hd2]
  have hfm : findMatches d.text = d.2.map Prod.fst := by
    show findMatches (d.1 ++ partsText d.2) = _
    rw [findMatches_seg d.1 _ (pctFree_chars hd1), findMatches_parts d.2 hd2]
  obtain ⟨p2, h1, h2, h3⟩ := foldl_merge ctx (d.2.map Prod.fst) (d.1, d.2) hd1 hd2 hkeys
  have hnil : p2.2 = [] := by
    have hmap : p2.2.map Prod.fst = [] := by
      rw [List.eq_nil_iff_forall_not_mem]
      intro x hx
      exact (h3 x hx).2 (h3 x hx).1
    exact List.map_eq_nil_iff.mp hmap
  have e1 : List.foldl (fun acc key => replaceSub acc key (ctx.fill (pctTrim key)))
      d.text (d.2.map Prod.fst) = p2.1 ++ partsText p2.2 := h1
  show List.foldl (fun acc key => replaceSub acc key (ctx.fill (pctTrim key)))
      d.text (findMatches d.text) = _
  rw [hfm, e1, hnil, hspec]
  have h2b := h2
  rw [hnil] at h2b
  exact h2b

/-- A run of C8's amended theorem at the concrete decomposition
`("x ", [("%\x7bB\x7d", " y")])` under the counterexample context. -/
theorem c8_replace_all_amended_witness :
    RefDecomp.good (str "x ", [(str "%\x7bB\x7d", str " y")])
    ∧ (∀ k ∈ RefDecomp.keys (str "x ", [(str "%\x7bB\x7d", str " y")]),
        pctFree (c8ctx.fill (pctTrim k)) = true)
    ∧ c8ctx.replace_all (RefDecomp.text (str "x ", [(str "%\x7bB\x7d", str " y")]))
        = c8ctx.replace_all_spec (RefDecomp.text (str "x ", [(str "%\x7bB\x7d", str " y")])) :=
  ⟨by unfold RefDecomp.good; decide, by decide,
    c8_replace_all_amended c8ctx (str "x ", [(str "%\x7bB\x7d", str " y")])
      (by unfold RefDecomp.good; decide) (by decide)⟩
